import Mathlib

/-!
Shallow embedding of the FUSE-sfs storage core (block bitmap layer, inode
layer, directory layer, path resolver and storage facade).

The embedding follows the C sources: `inode.c` (inode table, grow/shrink,
read/write), `directory.c` (directory entries, lookup/put/delete/list, path
resolution) and `storage.c` (the facade).  The block device, the two bitmaps
and the string list (`blocks.c`, `bitmap.c`, `slist.c`) are not part of the
provided sources; those definitions are modelled from the specification and
are marked as such in their doc comments.

Modelling conventions:
- Machine integers are `Int` (C `int`); all divisions written `Int.div`
  mirror C's truncating division.  Arithmetic overflow at 2^31 is outside
  the range exercised by any theorem below.
- The disk is a field of the `FS` state: `blocks b o` is the byte at offset
  `o` of block `b`.  The inode table and the two bitmaps live in reserved
  blocks in C; they are separate fields here, which coincides with the C
  layout as long as no file data block aliases a reserved block (the
  well-formedness predicates used by the theorems require exactly that).
- C pointers that may be `NULL` become `Option`; a C execution that
  dereferences `NULL` or never terminates is modelled as the result `none`.
- Buffers handed to write are total functions `Nat → Nat`; bytes are stored
  reduced mod 256 as a C `char` would be.  Names and paths are byte lists.
- Uninitialised C stack bytes that are provably never observed (tombstone
  padding, the reserved dirent field) are modelled as zero.
-/

namespace SFS

/-- Pointwise update of a total function out of `Nat`. -/
def upd {α : Type} (f : Nat → α) (i : Nat) (v : α) : Nat → α :=
  fun j => if j = i then v else f j

/-- Block size in bytes (`BLOCK_SIZE`). -/
def BLOCK_SIZE : Nat := 4096

/-- Number of blocks on the device (`BLOCK_COUNT`, spec `NBLOCKS`). -/
def NBLOCKS : Nat := 256

/-- Number of inode table entries (`INODE_COUNT`). -/
def INODE_COUNT : Nat := 256

/-- Size of an inode record in bytes (`INODE_SIZE`, 72). -/
def INODE_SIZE : Nat := 72

/-- Number of direct block pointers (`NDIRECT`). -/
def NDIRECT : Nat := 12

/-- Number of indirect block pointers (`NINDIRECT`). -/
def NINDIRECT : Nat := 1024

/-- Maximum length of a directory entry name (`DIR_NAME_LENGTH`). -/
def DIR_NAME_LENGTH : Nat := 48

/-- Size of a dirent record in bytes (`DIRENT_SIZE`). -/
def DIRENT_SIZE : Nat := 64

/-- Inode number of the root directory (`DIR_ROOT`). -/
def DIR_ROOT : Nat := 1

/-- Largest number of file blocks an inode can map (`NDIRECT + NINDIRECT`). -/
def MAXFBLOCKS : Nat := NDIRECT + NINDIRECT

/-- The inode record (`inode_t`): index, mode, reference count, link count,
size in bytes, twelve direct block indices and one indirect block index. -/
structure Inode where
  inum : Int
  mode : Int
  refs : Int
  links : Int
  size : Int
  direct : List Int
  indirect : Int
deriving Repr, DecidableEq

/-- The state of the mounted volume: block bitmap, inode bitmap, inode table
and block contents (`blocks b o` is byte `o` of block `b`). -/
structure FS where
  bbm : Nat → Bool
  ibm : Nat → Bool
  inodes : Nat → Inode
  blocks : Nat → Nat → Nat

/-- Modelled from the spec: `bitmap.c` is not under src.  `bitmap_get` reads
bit `i` of a bitmap. -/
def bitmap_get (bm : Nat → Bool) (i : Nat) : Bool := bm i

/-- Modelled from the spec: `bitmap.c` is not under src.  `bitmap_put` sets
bit `i` of a bitmap to `v`. -/
def bitmap_put (bm : Nat → Bool) (i : Nat) (v : Bool) : Nat → Bool := upd bm i v

/-- Modelled from the spec: `blocks.c` is not under src.
`bytes_to_blocks n = ceil(n / BLOCK_SIZE)` with `bytes_to_blocks 0 = 0`. -/
def bytes_to_blocks (n : Int) : Nat := ((n + 4095) / 4096).toNat

/-- Modelled from the spec: scan `k` bits of the bitmap upward from `i` and
return the lowest clear one, if any. -/
def findClear (bm : Nat → Bool) : Nat → Nat → Option Nat
  | _, 0 => none
  | i, k + 1 => if bm i then findClear bm (i + 1) k else some i

/-- Modelled from the spec: `alloc_block` takes the lowest clear bit of the
block bitmap in `[1, NBLOCKS)`, sets it and zero-fills the block; it fails
(`NO_SPACE`, C result `-1`) when every such bit is set. -/
def alloc_block (s : FS) : FS × Option Nat :=
  match findClear s.bbm 1 255 with
  | none => (s, none)
  | some b =>
    ({ s with bbm := bitmap_put s.bbm b true,
              blocks := upd s.blocks b (fun _ => 0) }, some b)

/-- Modelled from the spec: `free_block` clears bit `b` of the block bitmap;
freeing a free block is a no-op.  The freed block's contents are undefined
in the spec; the model leaves them in place (they are zero-filled again on
reallocation). -/
def free_block (s : FS) (b : Int) : FS :=
  { s with bbm := bitmap_put s.bbm b.toNat false }

/-- Apply an update to the record of inode `i`. -/
def updInode (s : FS) (i : Nat) (f : Inode → Inode) : FS :=
  { s with inodes := upd s.inodes i (f (s.inodes i)) }

/-- Write one byte of block content. -/
def setByte (s : FS) (b o v : Nat) : FS :=
  { s with blocks := upd s.blocks b (upd (s.blocks b) o v) }

/-- Little-endian 32-bit read of block content at byte offset `off`
(a C `int` load from inside a block, e.g. an indirect-block entry). -/
def le32get (blk : Nat → Nat) (off : Nat) : Nat :=
  blk off + 256 * blk (off + 1) + 65536 * blk (off + 2) + 16777216 * blk (off + 3)

/-- Reinterpret an unsigned 32-bit value as a signed C `int`. -/
def sdec (n : Nat) : Int :=
  if n < 2147483648 then (n : Int) else (n : Int) - 4294967296

/-- The four little-endian bytes of a C `int` value. -/
def le32bytes (v : Int) : List Nat :=
  [(v.emod 4294967296).toNat % 256,
   (v.emod 4294967296).toNat / 256 % 256,
   (v.emod 4294967296).toNat / 65536 % 256,
   (v.emod 4294967296).toNat / 16777216 % 256]

/-- Little-endian 32-bit store into block `b` at byte offset `off`. -/
def le32set (s : FS) (b off : Nat) (v : Int) : FS :=
  setByte (setByte (setByte (setByte s b off ((v.emod 4294967296).toNat % 256))
    b (off + 1) ((v.emod 4294967296).toNat / 256 % 256))
    b (off + 2) ((v.emod 4294967296).toNat / 65536 % 256))
    b (off + 3) ((v.emod 4294967296).toNat / 16777216 % 256)

/-- A slot holding a file-block number: either `direct[k]` of inode `i`, or
the `k`-th `int` entry of indirect block `b` (the value `inode_get_bnum`
returns a pointer to). -/
inductive Slot where
  | dir : Nat → Nat → Slot
  | ind : Nat → Nat → Slot
deriving Repr, DecidableEq

/-- Read the block number stored in a slot. -/
def slotRead (s : FS) : Slot → Int
  | .dir i k => (s.inodes i).direct.getD k 0
  | .ind b k => sdec (le32get (s.blocks b) (4 * k))

/-- Write a block number into a slot. -/
def slotWrite (s : FS) : Slot → Int → FS
  | .dir i k, v => updInode s i (fun r => { r with direct := r.direct.set k v })
  | .ind b k, v => le32set s b (4 * k) v

/-- `get_inode`: the typed view of inode `inum` iff `0 < inum < INODE_COUNT`,
otherwise the null view (the model's view is the table index). -/
def get_inode (inum : Int) : Option Nat :=
  if 0 < inum ∧ inum < 256 then some inum.toNat else none

/-- Read of the inode bitmap at a C `int` index; a negative index is an
out-of-bounds read in C, modelled as `false`. -/
def ibmGetI (s : FS) (inum : Int) : Bool :=
  if inum < 0 then false else s.ibm inum.toNat

/-- `inode_valid`: a non-null inode whose self-reported `inum` is nonzero and
whose inode-bitmap bit is set. -/
def inode_valid (s : FS) (node : Option Nat) : Bool :=
  match node with
  | none => false
  | some i => ibmGetI s (s.inodes i).inum && (s.inodes i).inum != 0

/-- `inode_get_bnum`: the slot holding the block number of file block
`file_bnum`; null when the inode is invalid, the index is out of range, or
the index needs an indirect block that is not allocated. -/
def inode_get_bnum (s : FS) (node : Option Nat) (file_bnum : Int) : Option Slot :=
  if ¬(inode_valid s node) ∨ file_bnum < 0 ∨ (1036 : Int) ≤ file_bnum then none
  else
    match node with
    | none => none
    | some i =>
      let k := file_bnum.toNat
      if k < 12 then some (.dir i k)
      else if (s.inodes i).indirect = 0 then none
      else some (.ind (s.inodes i).indirect.toNat (k - 12))

/-- `inode_get_byte` as a disk location: the (block, offset) pair addressing
file byte `file_byte`.  `none` both for the C `NULL` result (invalid inode or
byte out of bounds) and for the null-pointer dereference the C code performs
when the mapping slot is missing: every C caller dereferences the result
unconditionally, so `none` uniformly marks a crashed execution. -/
def inode_get_byte_loc (s : FS) (node : Option Nat) (file_byte : Int) :
    Option (Nat × Nat) :=
  match node with
  | none => none
  | some i =>
    if ¬(inode_valid s (some i)) ∨ file_byte < 0 ∨ (s.inodes i).size ≤ file_byte
    then none
    else
      let fb := file_byte.toNat
      match inode_get_bnum s (some i) ((fb / 4096 : Nat) : Int) with
      | none => none
      | some slot => some ((slotRead s slot).toNat, fb % 4096)

/-- The byte value at a file byte location. -/
def inode_get_byte (s : FS) (node : Option Nat) (file_byte : Int) : Option Nat :=
  (inode_get_byte_loc s node file_byte).map (fun p => s.blocks p.1 p.2)

/-- `alloc_indirect`: allocate a block and install it as the inode's indirect
block; `-1` when allocation fails. -/
def alloc_indirect (s : FS) (i : Nat) : FS × Int :=
  match alloc_block s with
  | (s1, none) => (s1, -1)
  | (s1, some b) => (updInode s1 i (fun r => { r with indirect := (b : Int) }), 0)

/-- Overwrite the size field of inode `i`. -/
def setSize (s : FS) (i : Nat) (v : Int) : FS :=
  updInode s i (fun r => { r with size := v })

/-- The body of `grow_inode`'s while loop, running `fuel = target - curr`
iterations.  Each iteration optionally allocates the indirect block, then
allocates one data block and installs it in slot `curr`.  The result is the
new state, the final block count and a success flag (`false` when an
allocation failed and the C code aborts with `-1`); `none` models the
null-pointer write `*inode_get_bnum(node, curr) = bnum` when the slot does
not exist. -/
def growLoop (s : FS) (i : Nat) (curr : Nat) : Nat → Option (FS × Nat × Bool)
  | 0 => some (s, curr, true)
  | fuel + 1 =>
    let needInd := 12 ≤ curr ∧ (s.inodes i).indirect = 0
    let p := if needInd then alloc_indirect s i else (s, 0)
    if p.2 = -1 then some (p.1, curr, false)
    else
      match alloc_block p.1 with
      | (s2, none) => some (s2, curr, false)
      | (s2, some b) =>
        match inode_get_bnum s2 (some i) (curr : Int) with
        | none => none
        | some slot => growLoop (slotWrite s2 slot (b : Int)) i (curr + 1) fuel

/-- `grow_inode`: reject an invalid inode or a size below the current one;
otherwise allocate blocks up to `bytes_to_blocks size`.  On success the size
becomes `size` and the result is `0`; when an allocation fails the size is
rounded down to the blocks actually held and the result is `-1`. -/
def grow_inode (s : FS) (node : Option Nat) (size : Int) : Option (FS × Int) :=
  if ¬(inode_valid s node) ∨
     size < (match node with | some i => (s.inodes i).size | none => 0) then
    some (s, -1)
  else
    match node with
    | none => some (s, -1)
    | some i =>
      let curr := bytes_to_blocks (s.inodes i).size
      let target := bytes_to_blocks size
      match growLoop s i curr (target - curr) with
      | none => none
      | some (s1, c1, ok) =>
        if ok then some (setSize s1 i size, 0)
        else some (setSize s1 i (4096 * (c1 : Int)), -1)

/-- The body of `shrink_inode`'s while loop, walking `curr` down to `target`
(structurally on `curr`; the slot index `curr_bcount - 1` of the C code is
the predecessor `curr`).  When the slot for that block is null or holds `0`
the C code executes `continue` without changing any state, which repeats
the same iteration forever; that divergence is modelled as `none`. -/
def shrinkLoop (i target : Nat) : FS → Nat → Option FS
  | s, 0 => some s
  | s, curr + 1 =>
    if target < curr + 1 then
      match inode_get_bnum s (some i) (curr : Int) with
      | none => none
      | some slot =>
        let b := slotRead s slot
        if b = 0 then none
        else shrinkLoop i target (slotWrite (free_block s b) slot 0) curr
    else some s

/-- Clear the indirect field of inode `i`. -/
def setIndirect0 (s : FS) (i : Nat) : FS :=
  updInode s i (fun r => { r with indirect := 0 })

/-- `shrink_inode`: reject an invalid inode or a size above the current one;
otherwise free blocks down to `bytes_to_blocks size`, free the indirect
block when `target ≤ NDIRECT`, set the new size and return it. -/
def shrink_inode (s : FS) (node : Option Nat) (size : Int) : Option (FS × Int) :=
  if ¬(inode_valid s node) ∨
     (match node with | some i => (s.inodes i).size | none => 0) < size then
    some (s, -1)
  else
    match node with
    | none => some (s, -1)
    | some i =>
      let curr := bytes_to_blocks (s.inodes i).size
      let target := bytes_to_blocks size
      match shrinkLoop i target s curr with
      | none => none
      | some s1 =>
        let s2 := if target ≤ 12 ∧ (s1.inodes i).indirect ≠ 0
                  then setIndirect0 (free_block s1 (s1.inodes i).indirect) i
                  else s1
        some (setSize s2 i size, size)

/-- The byte-copying loop of `inode_read`: `iCur` bytes copied so far,
`fuel = n - iCur` bytes still requested.  Returns the count and the bytes
copied into the buffer. -/
def readLoop (s : FS) (i : Nat) (off : Int) : Nat → Nat → Option (Nat × List Nat)
  | iCur, 0 => some (iCur, [])
  | iCur, fuel + 1 =>
    if (s.inodes i).size ≤ off + iCur then some (iCur, [])
    else
      match inode_get_byte s (some i) (off + iCur) with
      | none => none
      | some v =>
        match readLoop s i off (iCur + 1) fuel with
        | none => none
        | some (c, bs) => some (c, v :: bs)

/-- `inode_read`: reject an invalid inode or negative offset/count, then copy
bytes `[off, min (off+n) size)` out of the file; the result is the byte
count and the buffer contents. -/
def inode_read (s : FS) (node : Option Nat) (off n : Int) : Option (Int × List Nat) :=
  if ¬(inode_valid s node) ∨ off < 0 ∨ n < 0 then some (-1, [])
  else
    match node with
    | none => some (-1, [])
    | some i => (readLoop s i off 0 n.toNat).map (fun p => ((p.1 : Int), p.2))

/-- The byte-copying loop of `inode_write`; returns `-1` instead of `0` when
no byte was writable. -/
def writeLoop (s : FS) (i : Nat) (buf : Nat → Nat) (off : Int) :
    Nat → Nat → Option (FS × Int)
  | iCur, 0 => some (s, (iCur : Int))
  | iCur, fuel + 1 =>
    if (s.inodes i).size ≤ off + iCur then
      some (s, if iCur = 0 then -1 else (iCur : Int))
    else
      match inode_get_byte_loc s (some i) (off + iCur) with
      | none => none
      | some (b, o) => writeLoop (setByte s b o (buf iCur % 256)) i buf off (iCur + 1) fuel

/-- `inode_write`: reject an invalid inode, a negative offset or `n ≤ 0`;
otherwise `grow_inode` to `off + n` (ignoring its result) and copy bytes
while they fall below the (possibly only partially grown) size. -/
def inode_write (s : FS) (node : Option Nat) (buf : Nat → Nat) (off n : Int) :
    Option (FS × Int) :=
  if ¬(inode_valid s node) ∨ off < 0 ∨ n ≤ 0 then some (s, -1)
  else
    match node with
    | none => some (s, -1)
    | some i =>
      match grow_inode s (some i) (off + n) with
      | none => none
      | some (s1, _) => writeLoop s1 i buf off 0 n.toNat

/-- `free_inode`: when the inode-bitmap bit is set, shrink the inode to zero
length and clear the bit; idempotent otherwise. -/
def free_inode (s : FS) (inum : Int) : Option FS :=
  if ibmGetI s inum then
    match shrink_inode s (get_inode inum) 0 with
    | none => none
    | some (s1, _) =>
      some { s1 with ibm := bitmap_put s1.ibm inum.toNat false }
  else some s

/-- `alloc_inode`: scan the inode bitmap upward from 2 for a clear bit; set
it and write `mode` and the self-index into the record.  `-1` when every
inode in `[2, INODE_COUNT)` is taken. -/
def alloc_inode (s : FS) (mode : Int) : FS × Int :=
  match findClear s.ibm 2 254 with
  | none => (s, -1)
  | some i =>
    ({ updInode s i (fun r => { r with mode := mode, inum := (i : Int) }) with
        ibm := bitmap_put s.ibm i true },
     (i : Int))

/-- `inode_init`: reserve the inode-table blocks
(`bytes_to_blocks (INODE_COUNT * INODE_SIZE)` of them, from block 1) in the
block bitmap and bit 0 of the inode bitmap. -/
def inode_init (s : FS) : FS :=
  let s1 := { s with bbm := bitmap_put (bitmap_put (bitmap_put (bitmap_put s.bbm
    1 true) 2 true) 3 true) 4 true }
  { s1 with ibm := bitmap_put s1.ibm 0 true }

/-- Test of C `mode & mask` on the low 32 bits of a mode word. -/
def modeHas (mode : Int) (mask : Nat) : Bool :=
  (mode.emod 4294967296).toNat &&& mask ≠ 0

/-- `read_mode`'s directory test: `mode & S_IFDIR` (0o40000). -/
def isdirB (mode : Int) : Bool := modeHas mode 16384

/-- `read_mode`'s regular-file test: `mode & S_IFREG` (0o100000). -/
def isfileB (mode : Int) : Bool := modeHas mode 32768

/-- `directory_init`: if inode 1 is allocated with a directory mode, done;
otherwise force inode-bitmap bit 1 and write `inum = 1`, `mode = 0o40755`
into the record. -/
def directory_init (s : FS) : FS :=
  if bitmap_get s.ibm DIR_ROOT && isdirB (s.inodes DIR_ROOT).mode then s
  else
    { updInode s DIR_ROOT (fun r => { r with inum := 1, mode := 16877 }) with
        ibm := bitmap_put s.ibm DIR_ROOT true }

/-- Modelled from the spec: the freshly created image is zero-filled and
block 0 (holding the bitmaps) is marked in use at format time. -/
def mounted : FS :=
  { bbm := fun b => b = 0,
    ibm := fun _ => false,
    inodes := fun _ => ⟨0, 0, 0, 0, 0, List.replicate 12 0, 0⟩,
    blocks := fun _ _ => 0 }

/-- A freshly formatted volume: `inode_init` then `directory_init` on the
zero-filled image. -/
def fmt : FS := directory_init (inode_init mounted)

/-- A directory entry (`dirent_t`): a 48-byte null-padded name, a target
inode number and 12 reserved bytes. -/
structure Dirent where
  name : List Nat
  inum : Int
  reserved : List Nat
deriving Repr, DecidableEq

/-- The all-zero dirent, also standing in for uninitialised C stack dirents
on paths where their contents are never observed. -/
def zeroDirent : Dirent := ⟨List.replicate 48 0, 0, List.replicate 12 0⟩

/-- The 64-byte on-disk image of a dirent. -/
def direntBytes (d : Dirent) : List Nat := d.name ++ le32bytes d.inum ++ d.reserved

/-- Little-endian packing of (up to) four bytes, missing bytes read as 0. -/
def lePack (bs : List Nat) : Nat :=
  bs.getD 0 0 + 256 * bs.getD 1 0 + 65536 * bs.getD 2 0 + 16777216 * bs.getD 3 0

/-- Decode a dirent from the bytes `inode_read` produced; a short read leaves
the tail of the C struct uninitialised, modelled as zero. -/
def parseDirent (bs : List Nat) : Dirent :=
  { name := bs.take 48 ++ List.replicate (48 - bs.length) 0,
    inum := sdec (lePack (bs.drop 48)),
    reserved := ((bs.drop 52) ++ List.replicate 12 0).take 12 }

/-- The C string stored in a byte buffer: everything before the first 0. -/
def cstr (bs : List Nat) : List Nat := bs.takeWhile (fun b => b != 0)

/-- `strcmp(a, b) == 0` for null-terminated strings. -/
def strcmpEq (a b : List Nat) : Bool := cstr a == cstr b

/-- The 48-byte name field `memcpy` fills from a caller buffer holding the
given name; bytes past the terminator are never observed and modelled 0. -/
def padName (name : List Nat) : List Nat :=
  name.take 48 ++ List.replicate (48 - name.length) 0

/-- A buffer function over a byte list (missing bytes read as 0). -/
def bufOfList (bs : List Nat) : Nat → Nat := fun i => bs.getD i 0

/-- The slot count `di->size / DIRENT_SIZE` of a directory (`Int.tdiv` is
C's truncating division). -/
def slotCount (s : FS) (i : Nat) : Nat := (Int.tdiv (s.inodes i).size 64).toNat

/-- `dirent_read`: read slot `idx` through `inode_read`; fails (inner `none`,
C `-1`) unless exactly `DIRENT_SIZE` bytes come back. -/
def dirent_read (s : FS) (di : Option Nat) (idx : Nat) : Option (Option Dirent) :=
  match inode_read s di ((idx : Int) * 64) 64 with
  | none => none
  | some (cnt, bs) =>
    if cnt = 64 then some (some (parseDirent bs)) else some none

/-- The scanning loop of `dirent_lookup`; the C loop ignores `dirent_read`
failures and compares against the uninitialised stack dirent, modelled as
the zero dirent. -/
def lookupLoop (s : FS) (di : Option Nat) (name : List Nat) :
    Nat → Nat → Option (Option Nat)
  | _, 0 => some none
  | ii, k + 1 =>
    match dirent_read s di ii with
    | none => none
    | some od =>
      let d := od.getD zeroDirent
      if strcmpEq name d.name then some (some ii)
      else lookupLoop s di name (ii + 1) k

/-- `dirent_lookup`: index of the first slot whose name matches, scanning all
`size / DIRENT_SIZE` slots; inner `none` is the C `-1`. -/
def dirent_lookup (s : FS) (di : Option Nat) (name : List Nat) :
    Option (Option Nat) :=
  match di with
  | none => none
  | some i => lookupLoop s (some i) name 0 (slotCount s i)

/-- `directory_lookup`: find the slot by name and return its target inum. -/
def directory_lookup (s : FS) (di : Option Nat) (name : List Nat) : Option Int :=
  match dirent_lookup s di name with
  | none => none
  | some none => some (-1)
  | some (some idx) =>
    match dirent_read s di idx with
    | none => none
    | some none => some (-1)
    | some (some d) => some d.inum

/-- The scanning loop of `directory_read`, threading the out-parameter
`temp` exactly as the C code does (failed reads leave it unchanged). -/
def drLoop (s : FS) (di : Option Nat) (dnum : Int) :
    Dirent → Int → Nat → Nat → Option (Int × Dirent)
  | temp, count, _, 0 => some (count, temp)
  | temp, count, ii, k + 1 =>
    if dnum ≤ count then some (count, temp)
    else
      match dirent_read s di ii with
      | none => none
      | some none => drLoop s di dnum temp count (ii + 1) k
      | some (some d) =>
        if d.inum != 0 then drLoop s di dnum d (count + 1) (ii + 1) k
        else drLoop s di dnum d count (ii + 1) k

/-- `directory_read`: the `dnum`-th non-tombstone slot; `0` and the slot on
success, `-1` (with the last slot scanned) when there are not enough live
slots. -/
def directory_read (s : FS) (di : Option Nat) (dnum : Int) : Option (Int × Dirent) :=
  match di with
  | none => none
  | some i =>
    match drLoop s (some i) dnum zeroDirent (-1) 0 (slotCount s i) with
    | none => none
    | some (count, temp) => some (if dnum ≤ count then 0 else -1, temp)

/-- The tombstone scan of `directory_put`: the first slot with `inum == 0`,
threading the reused stack dirent like the C code. -/
def dpScan (s : FS) (di : Option Nat) :
    Dirent → Nat → Nat → Option (Option Nat × Dirent)
  | d, _, 0 => some (none, d)
  | d, ii, k + 1 =>
    match dirent_read s di ii with
    | none => none
    | some none =>
      if d.inum = 0 then some (some ii, d) else dpScan s di d (ii + 1) k
    | some (some dd) =>
      if dd.inum = 0 then some (some ii, dd)
      else dpScan s di dd (ii + 1) k

/-- `directory_put`: validate both inodes, reuse the first tombstone slot or
append at `di->size`, write the new entry (ignoring the write's result) and
increment the target's link count. -/
def directory_put (s : FS) (di : Option Nat) (name : List Nat) (inum : Int) :
    Option (FS × Int) :=
  let node := get_inode inum
  if ¬(inode_valid s di) ∨ ¬(inode_valid s node) then some (s, -1)
  else
    match di, node with
    | some i, some ni =>
      match dpScan s (some i) zeroDirent 0 (slotCount s i) with
      | none => none
      | some (offSlot, d0) =>
        let off : Int := match offSlot with
          | some ii => (ii : Int) * 64
          | none => (s.inodes i).size
        let d1 : Dirent := { d0 with name := padName name, inum := inum }
        match inode_write s (some i) (bufOfList (direntBytes d1)) off 64 with
        | none => none
        | some (s1, _) =>
          some (updInode s1 ni (fun r => { r with links := r.links + 1 }), 0)
    | _, _ => some (s, -1)

/-- `directory_delete`: find the slot by name, re-read it (the C success
check `0 == inode_read(...)` only rejects a zero-byte read), require a valid
target, decrement its links (freeing the inode at `links ≤ 0`), then
overwrite the slot with a tombstone, ignoring that write's result. -/
def directory_delete (s : FS) (di : Option Nat) (name : List Nat) :
    Option (FS × Int) :=
  if ¬(inode_valid s di) then some (s, -1)
  else
    match dirent_lookup s di name with
    | none => none
    | some none => some (s, -1)
    | some (some idx) =>
      match inode_read s di ((idx : Int) * 64) 64 with
      | none => none
      | some (cnt, bs) =>
        if cnt = 0 then some (s, -1)
        else
          let d := parseDirent bs
          let node := get_inode d.inum
          if ¬(inode_valid s node) then some (s, -1)
          else
            match node with
            | none => some (s, -1)
            | some ni =>
              let s1 := updInode s ni (fun r => { r with links := r.links - 1 })
              match (if (s1.inodes ni).links ≤ 0
                     then free_inode s1 d.inum else some s1) with
              | none => none
              | some s2 =>
                let d2 : Dirent := { d with inum := 0, name := List.replicate 48 0 }
                match inode_write s2 di (bufOfList (direntBytes d2))
                    ((idx : Int) * 64) 64 with
                | none => none
                | some (s3, _) => some (s3, 0)

/-- The collection loop of `directory_list` (reads each slot directly with
`inode_read`, ignoring the byte count). -/
def dlLoop (s : FS) (i : Nat) : Nat → Nat → List (List Nat) → Option (List (List Nat))
  | _, 0, acc => some acc
  | ii, k + 1, acc =>
    match inode_read s (some i) ((ii : Int) * 64) 64 with
    | none => none
    | some (_, bs) =>
      let d := parseDirent bs
      if d.inum != 0 then dlLoop s i (ii + 1) k (cstr d.name :: acc)
      else dlLoop s i (ii + 1) k acc

/-- `directory_list`: the C code returns `NULL` when the mode has the
directory bit set, otherwise a cons list of the live names built in reverse
and then reversed.  The inner option is the returned `slist_t *`, with
`none` for `NULL` (which is also the empty list). -/
def directory_list (s : FS) (di : Option Nat) :
    Option (Option (List (List Nat))) :=
  match di with
  | none => none
  | some i =>
    if isdirB (s.inodes i).mode then some none
    else
      match dlLoop s i 0 (slotCount s i) [] with
      | none => none
      | some acc =>
        some (if acc.reverse.isEmpty then none else some acc.reverse)

/-- Modelled from the spec: `slist.c` is not under src; `slist_explode`
splits a byte string on a delimiter into its non-empty components. -/
def explodeAux (delim : Nat) : List Nat → List Nat → List (List Nat)
  | [], cur => if cur.isEmpty then [] else [cur.reverse]
  | b :: rest, cur =>
    if b = delim then
      if cur.isEmpty then explodeAux delim rest []
      else cur.reverse :: explodeAux delim rest []
    else explodeAux delim rest (b :: cur)

/-- Modelled from the spec: `slist_explode path delim`. -/
def slist_explode (bs : List Nat) (delim : Nat) : List (List Nat) :=
  explodeAux delim bs []

/-- The component walk of `path_get_inode`; a lookup on the null inode
dereferences `di->size` in C, modelled as a crash. -/
def resolveLoop (s : FS) : Option Nat → List (List Nat) → Option (Option Nat)
  | di, [] => some di
  | none, _ :: _ => none
  | some i, c :: rest =>
    match directory_lookup s (some i) c with
    | none => none
    | some inum =>
      if inum = -1 then some none
      else resolveLoop s (get_inode inum) rest

/-- `path_get_inode`: `/` is inode 1; otherwise walk the components of
`path + 1` from the root. -/
def path_get_inode (s : FS) (path : List Nat) : Option (Option Nat) :=
  let di := get_inode 1
  if path = [47] then some di
  else resolveLoop s di (slist_explode (path.drop 1) 47)

/-- The directory inodes `resolveLoop` looks a component up in, in order
(mirrors `resolveLoop`'s walk; used to state that a resolution never
passes through a given inode). -/
def resolveVisits (s : FS) : Option Nat → List (List Nat) → List Nat
  | _, [] => []
  | none, _ :: _ => []
  | some d, c :: rest =>
    d :: (match directory_lookup s (some d) c with
          | none => []
          | some inum => if inum = -1 then [] else resolveVisits s (get_inode inum) rest)

/-- `path_split_strings`: split a path into the parent directory path and
the final component; `none` is the C `-1` (empty component list), after
which the C callers read uninitialised buffers. -/
def path_split_strings (path : List Nat) : Option (List Nat × List Nat) :=
  match slist_explode path 47 with
  | [] => none
  | c :: cs =>
    some (47 :: List.intercalate [47] ((c :: cs).dropLast),
          (c :: cs).getLast (by simp))

/-- `storage_access`: the C comparison `NULL != path_get_inode(path)`
converted to `int` (1 when the path resolves, 0 when it does not). -/
def storage_access (s : FS) (path : List Nat) : Option Int :=
  (path_get_inode s path).map (fun r => if r.isSome then 1 else 0)

/-- `storage_read`: resolve and delegate to `inode_read`. -/
def storage_read (s : FS) (path : List Nat) (n off : Int) :
    Option (Int × List Nat) :=
  match path_get_inode s path with
  | none => none
  | some none => some (-1, [])
  | some (some i) => inode_read s (some i) off n

/-- `storage_write`: resolve and delegate to `inode_write`. -/
def storage_write (s : FS) (path : List Nat) (buf : Nat → Nat) (n off : Int) :
    Option (FS × Int) :=
  match path_get_inode s path with
  | none => none
  | some none => some (s, -1)
  | some (some i) => inode_write s (some i) buf off n

/-- `storage_truncate`: grow or shrink to the requested size. -/
def storage_truncate (s : FS) (path : List Nat) (size : Int) : Option (FS × Int) :=
  match path_get_inode s path with
  | none => none
  | some none => some (s, -1)
  | some (some i) =>
    if (s.inodes i).size < size then
      match grow_inode s (some i) size with
      | none => none
      | some (s1, r) => some (s1, if r = -1 then -1 else 0)
    else if size < (s.inodes i).size then
      match shrink_inode s (some i) size with
      | none => none
      | some (s1, r) => some (s1, if r = -1 then -1 else 0)
    else some (s, 0)

/-- `storage_mknod`: split the path, allocate an inode first, then resolve
the parent and `directory_put` the new entry into it.  A failing put leaves
the already-allocated inode behind. -/
def storage_mknod (s : FS) (path : List Nat) (mode : Int) : Option (FS × Int) :=
  match path_split_strings path with
  | none => none
  | some (dirp, name) =>
    match alloc_inode s mode with
    | (s1, inum) =>
      if inum < 0 then some (s1, -1)
      else
        match path_get_inode s1 dirp with
        | none => none
        | some di =>
          match directory_put s1 di name inum with
          | none => none
          | some (s2, r) => some (s2, if r = -1 then -1 else 0)

/-- `storage_unlink`: split the path, resolve the parent and delete the
entry. -/
def storage_unlink (s : FS) (path : List Nat) : Option (FS × Int) :=
  match path_split_strings path with
  | none => none
  | some (dirp, name) =>
    match path_get_inode s dirp with
    | none => none
    | some none => some (s, -1)
    | some (some di) => directory_delete s (some di) name

/-- `storage_rmdir`: reject when `directory_read` finds a live slot,
otherwise `storage_unlink` the directory path. -/
def storage_rmdir (s : FS) (path : List Nat) : Option (FS × Int) :=
  match path_get_inode s path with
  | none => none
  | some di =>
    match directory_read s di 0 with
    | none => none
    | some (r, _) =>
      if 0 ≤ r then some (s, -1)
      else storage_unlink s path

/-- `storage_list`: resolve and `directory_list`. -/
def storage_list (s : FS) (path : List Nat) :
    Option (Option (List (List Nat))) :=
  match path_get_inode s path with
  | none => none
  | some di => directory_list s di


/-- The slot that holds file block `k` of inode `i` (the mapping
`inode_get_bnum` computes, without its validity checks). -/
def slotAt (s : FS) (i : Nat) (k : Nat) : Option Slot :=
  if k < 12 then some (.dir i k)
  else if (s.inodes i).indirect = 0 then none
  else some (.ind (s.inodes i).indirect.toNat (k - 12))

/-- The block number stored for file block `k` of inode `i` (0 when the slot
does not exist). -/
def slotVal (s : FS) (i : Nat) (k : Nat) : Int :=
  match slotAt s i k with
  | none => 0
  | some sl => slotRead s sl

/-- The on-disk byte holding file byte `j` of inode `i`. -/
def fileByte (s : FS) (i : Nat) (j : Nat) : Nat :=
  s.blocks (slotVal s i (j / 4096)).toNat (j % 4096)

/-- Index `i` names a valid inode: in range, self-indexed, bitmap-marked.
This makes `inode_valid` true. -/
def ValidIdx (s : FS) (i : Nat) : Prop :=
  0 < i ∧ i < 256 ∧ (s.inodes i).inum = (i : Int) ∧ s.ibm i = true

/-- Structural well-formedness of the block mapping of inode `i`: a 12-entry
direct array, a non-negative size, every file block below
`bytes_to_blocks size` mapped to a distinct marked data block in `[5, 256)`,
clean slots beyond the size, and a marked in-range indirect block present
whenever more than `NDIRECT` blocks are mapped. -/
def WFnode (s : FS) (i : Nat) : Prop :=
  (s.inodes i).inum = (i : Int) ∧
  0 ≤ (s.inodes i).size ∧
  (s.inodes i).direct.length = 12 ∧
  (∀ k, k < bytes_to_blocks (s.inodes i).size →
    5 ≤ slotVal s i k ∧ slotVal s i k < 256 ∧ s.bbm (slotVal s i k).toNat = true) ∧
  (∀ k, bytes_to_blocks (s.inodes i).size ≤ k → k < 12 →
    (s.inodes i).direct.getD k 0 = 0) ∧
  ((s.inodes i).indirect ≠ 0 →
    5 ≤ (s.inodes i).indirect ∧ (s.inodes i).indirect < 256 ∧
    s.bbm (s.inodes i).indirect.toNat = true ∧
    (∀ k, bytes_to_blocks (s.inodes i).size ≤ k → 12 ≤ k → k < 1036 →
      slotVal s i k = 0)) ∧
  (12 < bytes_to_blocks (s.inodes i).size → (s.inodes i).indirect ≠ 0) ∧
  (∀ k k2, k < bytes_to_blocks (s.inodes i).size →
    k2 < bytes_to_blocks (s.inodes i).size → k ≠ k2 → slotVal s i k ≠ slotVal s i k2) ∧
  (∀ k, k < bytes_to_blocks (s.inodes i).size → slotVal s i k ≠ (s.inodes i).indirect)

/-- Block `b` belongs to inode `i`: it is a mapped data block or the
indirect block. -/
def ownedBlk (s : FS) (i : Nat) (b : Nat) : Prop :=
  (∃ k, k < bytes_to_blocks (s.inodes i).size ∧ (slotVal s i k).toNat = b) ∨
  ((s.inodes i).indirect ≠ 0 ∧ (s.inodes i).indirect.toNat = b)

/-- Global well-formedness: the reserved block-bitmap and inode-bitmap bits
are set, every allocated inode is structurally well formed and self-indexed,
and distinct allocated inodes own disjoint blocks. -/
def WF (s : FS) : Prop :=
  s.bbm 0 = true ∧ s.bbm 1 = true ∧ s.bbm 2 = true ∧ s.bbm 3 = true ∧
  s.bbm 4 = true ∧ s.ibm 0 = true ∧ s.ibm 1 = true ∧
  (∀ i, i < 256 → s.ibm i = true → (s.inodes i).inum = (i : Int) ∧ WFnode s i) ∧
  (∀ i j, i < 256 → j < 256 → s.ibm i = true → s.ibm j = true → i ≠ j →
    ∀ b, b < 256 → ownedBlk s i b → ¬ ownedBlk s j b)

/-- Number of set bits of the inode bitmap (its domain is `[0, NINODES)`). -/
def popcountIbm (s : FS) : Nat :=
  ((List.range 256).filter (fun i => s.ibm i)).length

/-- Number of clear bits of the block bitmap in `[1, NBLOCKS)`: the blocks
`alloc_block` can still hand out. -/
def freeBlockCount (s : FS) : Nat :=
  ((Finset.range 256).filter (fun b => 1 ≤ b ∧ s.bbm b = false)).card

/-- The target inums of the live (non-tombstone) slots of directory `i`. -/
def liveInums (s : FS) (i : Nat) : List Nat :=
  (List.range (slotCount s i)).filterMap (fun k =>
    match dirent_read s (some i) k with
    | some (some d) => if d.inum != 0 then some d.inum.toNat else none
    | _ => none)

/-- One step of the reachability closure from a set of inums: add the live
targets of every directory in the set. -/
def reachStep (s : FS) (acc : List Nat) : List Nat :=
  (acc ++ acc.flatMap (fun i =>
    if isdirB (s.inodes i).mode then liveInums s i else [])).dedup

/-- Iterated reachability from the root (inode 1). -/
def reachIter (s : FS) : Nat → List Nat
  | 0 => [1]
  | n + 1 => reachStep s (reachIter s n)

/-- The inodes reachable from the root directory, the root and the null
inode themselves excluded. -/
def reachableCount (s : FS) : Nat :=
  ((reachIter s 256).filter (fun i => i != 0 && i != 1)).length

/-- Path `/a` (bytes). -/
def c1path : List Nat := [47, 97]

/-- The state after `storage_mknod("/a", 0100644)` on a fresh volume: the
root holds one live entry `a` for inode 2. -/
def c1state : FS := ((storage_mknod fmt c1path 33188).getD (fmt, 0)).1

/-- Path `/d/x` (bytes); `/d` does not exist on a fresh volume. -/
def c2path : List Nat := [47, 100, 47, 120]

/-- The state after the failing `storage_mknod("/d/x", 0100644)` on a fresh
volume: the inode allocated before the parent lookup is left behind. -/
def c2state : FS := ((storage_mknod fmt c2path 33188).getD (fmt, 0)).1

/-- Path `/` (bytes). -/
def rootPath : List Nat := [47]

/-- A stale inode record with nonzero `refs`, `links`, `size`, `direct[0]`
and `indirect`, as a freed inode can leave behind. -/
def c6inode : Inode := ⟨2, 33188, 4, 7, 123, 9 :: List.replicate 11 0, 3⟩

/-- See `c6inode`: the stale record installed at index 2. -/
def c6state : FS := { fmt with inodes := upd fmt.inodes 2 c6inode }

/-- A freshly formatted volume holding one regular file of size 0: inode 2
is allocated with mode `0100644` and a clean block mapping. -/
def fmtFile : FS :=
  { fmt with ibm := bitmap_put fmt.ibm 2 true,
             inodes := upd fmt.inodes 2 ⟨2, 33188, 0, 0, 0, List.replicate 12 0, 0⟩ }

/-- A formatted volume holding one directory `/d` (inode 2) whose single
slot is a tombstone: the state `mknod /d; mknod /d/x; unlink /d/x` reaches.
Root (inode 1) has one live entry `d` in block 5; the directory's slot
block 6 is all zeros (`inum = 0`). -/
def c8state : FS :=
  { bbm := fun b => decide (b ≤ 6),
    ibm := fun j => decide (j ≤ 2),
    inodes := fun j =>
      if j = 1 then ⟨1, 16877, 0, 0, 64, (5 : Int) :: List.replicate 11 0, 0⟩
      else if j = 2 then ⟨2, 16877, 0, 1, 64, (6 : Int) :: List.replicate 11 0, 0⟩
      else ⟨0, 0, 0, 0, 0, List.replicate 12 0, 0⟩,
    blocks := fun b o =>
      if b = 5 then (if o = 0 then 100 else if o = 48 then 2 else 0) else 0 }

/-- A formatted volume holding one empty regular file `/a` (inode 2): root
(inode 1) has one live entry `a` in block 5; inode 2 has size 0 and a clean
mapping. -/
def c9state : FS :=
  { bbm := fun bb => decide (bb ≤ 5),
    ibm := fun j => decide (j ≤ 2),
    inodes := fun j =>
      if j = 1 then ⟨1, 16877, 0, 0, 64, (5 : Int) :: List.replicate 11 0, 0⟩
      else if j = 2 then ⟨2, 33188, 0, 1, 0, List.replicate 12 0, 0⟩
      else ⟨0, 0, 0, 0, 0, List.replicate 12 0, 0⟩,
    blocks := fun bb o =>
      if bb = 5 then (if o = 0 then 97 else if o = 48 then 2 else 0) else 0 }

/-- The state after `storage_write(c9state, "/a", [65], 1, 0)`. -/
def c9post : FS :=
  ((storage_write c9state [47, 97] (fun _ => 65) 1 0).getD (c9state, 0)).1

/-- A formatted volume whose regular file (inode 2) has one data block:
size 4096, `direct[0] = 5`, block 5 marked in the block bitmap. -/
def c10state : FS :=
  { fmtFile with
      bbm := bitmap_put fmtFile.bbm 5 true,
      inodes := upd fmtFile.inodes 2
        ⟨2, 33188, 0, 0, 4096, (5 : Int) :: List.replicate 11 0, 0⟩ }


/-- Loop invariant of `grow_inode`: inode `i` is valid with a 12-entry
direct array; the first `curr` file blocks are mapped to distinct marked
data blocks in `[5, 256)` distinct from the indirect block; slots from
`curr` on are clean; the indirect block, when present, is marked and in
range; the reserved blocks are marked; and `curr` plus the free-block count
stays below the slot range, which rules out the out-of-range slot write. -/
def GrowInv (s : FS) (i curr : Nat) : Prop :=
  ValidIdx s i ∧
  (s.inodes i).direct.length = 12 ∧
  (∀ k, k < curr → 5 ≤ slotVal s i k ∧ slotVal s i k < 256 ∧
    s.bbm (slotVal s i k).toNat = true) ∧
  (∀ k, curr ≤ k → k < 12 → (s.inodes i).direct.getD k 0 = 0) ∧
  ((s.inodes i).indirect ≠ 0 →
    5 ≤ (s.inodes i).indirect ∧ (s.inodes i).indirect < 256 ∧
    s.bbm (s.inodes i).indirect.toNat = true ∧
    (∀ k, curr ≤ k → 12 ≤ k → k < 1036 → slotVal s i k = 0)) ∧
  (12 < curr → (s.inodes i).indirect ≠ 0) ∧
  (∀ k k2, k < curr → k2 < curr → k ≠ k2 → slotVal s i k ≠ slotVal s i k2) ∧
  (∀ k, k < curr → slotVal s i k ≠ (s.inodes i).indirect) ∧
  s.bbm 0 = true ∧ s.bbm 1 = true ∧ s.bbm 2 = true ∧ s.bbm 3 = true ∧
  s.bbm 4 = true ∧
  curr + freeBlockCount s ≤ 1036

/-- What one or more `grow_inode` loop iterations change, going from block
count `curr` to `m`: only inode `i`'s mapping evolves (slots `[curr, m)`
gain freshly allocated blocks, the indirect block may appear), the inode
bitmap and all other inode records are untouched, the block bitmap only
gains the fresh blocks, the contents of previously marked blocks other
than the indirect block are untouched, and the free-block count drops by
exactly the number of allocations. -/
def GrowDelta (s s' : FS) (i curr m : Nat) : Prop :=
  (∀ j, j ≠ i → s'.inodes j = s.inodes j) ∧
  s'.ibm = s.ibm ∧
  (s'.inodes i).inum = (s.inodes i).inum ∧
  (s'.inodes i).mode = (s.inodes i).mode ∧
  (s'.inodes i).links = (s.inodes i).links ∧
  (s'.inodes i).refs = (s.inodes i).refs ∧
  (s'.inodes i).size = (s.inodes i).size ∧
  (∀ k, k < curr → slotVal s' i k = slotVal s i k) ∧
  (∀ k, curr ≤ k → k < m → s.bbm (slotVal s' i k).toNat = false) ∧
  ((s.inodes i).indirect ≠ 0 → (s'.inodes i).indirect = (s.inodes i).indirect) ∧
  ((s'.inodes i).indirect = 0 → (s.inodes i).indirect = 0) ∧
  ((s.inodes i).indirect = 0 → (s'.inodes i).indirect ≠ 0 →
    s.bbm (s'.inodes i).indirect.toNat = false) ∧
  (∀ b, s.bbm b = true → s'.bbm b = true) ∧
  (∀ b, b < 256 → s'.bbm b = true → s.bbm b = false →
    (∃ k, curr ≤ k ∧ k < m ∧ (slotVal s' i k).toNat = b) ∨
    ((s.inodes i).indirect = 0 ∧ (s'.inodes i).indirect ≠ 0 ∧
      (s'.inodes i).indirect.toNat = b)) ∧
  (∀ b, s.bbm b = true →
    ((s'.inodes i).indirect = 0 ∨ b ≠ (s'.inodes i).indirect.toNat) →
    s'.blocks b = s.blocks b) ∧
  (freeBlockCount s = freeBlockCount s' + (m - curr) +
    (if (s.inodes i).indirect = 0 ∧ (s'.inodes i).indirect ≠ 0 then 1 else 0))


/-! Theorems.  Helper lemmas come first, then one theorem per claim (with
its witness or counterexample where required). -/

set_option maxRecDepth 65536
set_option maxHeartbeats 2000000

/-- C3: the claim says `storage_access` returns 0 when the path resolves and
-1 when it does not, as the facade contract and the header documentation
state.  The code instead returns the raw C comparison result: 1 for an
existing path (here `/`) and 0 for a missing one (here `/z`), so the claim
fails on the code. -/
theorem c3_storage_access_returns_bool_not_contract :
    storage_access fmt rootPath = some 1 ∧ storage_access fmt [47, 122] = some 0 := by
  constructor <;> rfl

/-- C1: on a volume whose root directory holds one live entry `a` (target
inode 2), and whose root mode has the directory type bit set,
`directory_list` returns `NULL` (`some none`): the `isdir` test in the
source is inverted and rejects exactly the directories, so listing never
returns the names of the live slots of a directory. -/
theorem c1_directory_list_null_on_directory :
    (storage_mknod fmt c1path 33188).map Prod.snd = some 0 ∧
    isdirB ((c1state).inodes 1).mode = true ∧
    (dirent_read c1state (some 1) 0).map (Option.map (fun d => (d.inum, cstr d.name)))
      = some (some (2, [97])) ∧
    directory_list c1state (some 1) = some none := by
  refine ⟨by decide, by decide, by decide, by decide⟩

/-- C2: after the failing `storage_mknod("/d/x")` on a fresh volume (the
parent `/d` does not resolve), the inode bitmap has 3 set bits (0, 1 and the
leaked inode 2) while no inode is reachable from the root, violating the
claimed accounting equality `popcount = reachable + 2`. -/
theorem c2_inode_accounting_violated_by_mknod_leak :
    (storage_mknod fmt c2path 33188).map Prod.snd = some (-1) ∧
    popcountIbm c2state = 3 ∧
    reachableCount c2state = 0 ∧
    popcountIbm c2state ≠ reachableCount c2state + 2 := by
  refine ⟨by decide, by decide, by decide, by decide⟩

/-- C6 counterexample: on a volume whose first free inode record still holds
stale nonzero `refs`, `links`, `size`, `direct[0]` and `indirect` values,
`alloc_inode` returns that inode with all of those fields unchanged — it
does not zero them as the claim states. -/
theorem c6_alloc_inode_does_not_zero_fields :
    (alloc_inode c6state 33188).2 = 2 ∧
    ((alloc_inode c6state 33188).1.inodes 2).refs = 4 ∧
    ((alloc_inode c6state 33188).1.inodes 2).links = 7 ∧
    ((alloc_inode c6state 33188).1.inodes 2).size = 123 ∧
    ((alloc_inode c6state 33188).1.inodes 2).direct.getD 0 0 = 9 ∧
    ((alloc_inode c6state 33188).1.inodes 2).indirect = 3 := by
  refine ⟨by decide, by decide, by decide, by decide, by decide, by decide⟩



theorem upd_eval {α : Type} (f : Nat → α) (i : Nat) (v : α) (j : Nat) :
    upd f i v j = if j = i then v else f j := rfl

theorem upd_self {α : Type} (f : Nat → α) (i : Nat) (v : α) : upd f i v i = v := by
  simp [upd]

theorem upd_ne {α : Type} (f : Nat → α) {i j : Nat} (v : α) (h : j ≠ i) :
    upd f i v j = f j := by simp [upd, h]

theorem setByte_inodes (s : FS) (b o v : Nat) : (setByte s b o v).inodes = s.inodes := rfl

theorem setByte_ibm (s : FS) (b o v : Nat) : (setByte s b o v).ibm = s.ibm := rfl

theorem setByte_bbm (s : FS) (b o v : Nat) : (setByte s b o v).bbm = s.bbm := rfl

theorem setByte_blocks (s : FS) (b o v b2 o2 : Nat) :
    (setByte s b o v).blocks b2 o2 =
      if b2 = b ∧ o2 = o then v else s.blocks b2 o2 := by
  by_cases hb : b2 = b <;> by_cases ho : o2 = o <;> simp [setByte, upd, hb, ho]

theorem updInode_inodes (s : FS) (i : Nat) (f : Inode → Inode) (j : Nat) :
    (updInode s i f).inodes j = if j = i then f (s.inodes i) else s.inodes j := rfl

theorem updInode_ibm (s : FS) (i : Nat) (f : Inode → Inode) :
    (updInode s i f).ibm = s.ibm := rfl

theorem updInode_bbm (s : FS) (i : Nat) (f : Inode → Inode) :
    (updInode s i f).bbm = s.bbm := rfl

theorem updInode_blocks (s : FS) (i : Nat) (f : Inode → Inode) :
    (updInode s i f).blocks = s.blocks := rfl

theorem free_block_bbm (s : FS) (b : Int) (j : Nat) :
    (free_block s b).bbm j = if j = b.toNat then false else s.bbm j := rfl

theorem free_block_ibm (s : FS) (b : Int) : (free_block s b).ibm = s.ibm := rfl

theorem free_block_inodes (s : FS) (b : Int) : (free_block s b).inodes = s.inodes := rfl

theorem free_block_blocks (s : FS) (b : Int) : (free_block s b).blocks = s.blocks := rfl

theorem le32set_inodes (s : FS) (b off : Nat) (v : Int) :
    (le32set s b off v).inodes = s.inodes := rfl

theorem le32set_ibm (s : FS) (b off : Nat) (v : Int) :
    (le32set s b off v).ibm = s.ibm := rfl

theorem le32set_bbm (s : FS) (b off : Nat) (v : Int) :
    (le32set s b off v).bbm = s.bbm := rfl

theorem le32set_blocks_ne_blk (s : FS) (b off : Nat) (v : Int) (b2 o2 : Nat)
    (h : b2 ≠ b) : (le32set s b off v).blocks b2 o2 = s.blocks b2 o2 := by
  simp [le32set, setByte_blocks, h]

theorem le32set_blocks_ne_off (s : FS) (b off : Nat) (v : Int) (o2 : Nat)
    (h : o2 ≠ off ∧ o2 ≠ off + 1 ∧ o2 ≠ off + 2 ∧ o2 ≠ off + 3) :
    (le32set s b off v).blocks b o2 = s.blocks b o2 := by
  obtain ⟨h0, h1, h2, h3⟩ := h
  simp [le32set, setByte_blocks, h0, h1, h2, h3]

theorem le32get_le32set_same (s : FS) (b off : Nat) (v : Int) :
    le32get ((le32set s b off v).blocks b) off = (v.emod 4294967296).toNat := by
  have hlt : (v.emod 4294967296).toNat < 4294967296 := by
    have h1 : v.emod 4294967296 < 4294967296 := Int.emod_lt_of_pos v (by norm_num)
    omega
  simp only [le32set, setByte_blocks, le32get]
  norm_num
  omega

theorem le32get_le32set_ne (s : FS) (b off off2 : Nat) (v : Int)
    (h : off2 + 3 < off ∨ off + 3 < off2) :
    le32get ((le32set s b off v).blocks b) off2 = le32get (s.blocks b) off2 := by
  have h0 := le32set_blocks_ne_off s b off v off2
    ⟨by omega, by omega, by omega, by omega⟩
  have h1 := le32set_blocks_ne_off s b off v (off2 + 1)
    ⟨by omega, by omega, by omega, by omega⟩
  have h2 := le32set_blocks_ne_off s b off v (off2 + 2)
    ⟨by omega, by omega, by omega, by omega⟩
  have h3 := le32set_blocks_ne_off s b off v (off2 + 3)
    ⟨by omega, by omega, by omega, by omega⟩
  simp only [le32get, h0, h1, h2, h3]

theorem sdec_emod_self (v : Int) (h0 : 0 ≤ v) (h1 : v < 2147483648) :
    sdec ((v.emod 4294967296).toNat) = v := by
  have : v.emod 4294967296 = v := Int.emod_eq_of_lt h0 (by omega)
  rw [this, sdec]
  simp [Int.toNat_of_nonneg h0]
  omega

theorem bytes_to_blocks_ofNat (m : Nat) :
    bytes_to_blocks (m : Int) = (m + 4095) / 4096 := by
  unfold bytes_to_blocks
  omega

theorem bytes_to_blocks_mul (m : Nat) :
    bytes_to_blocks ((4096 * m : Nat) : Int) = m := by
  rw [bytes_to_blocks_ofNat]; omega

theorem lt_bytes_to_blocks (m k : Nat) :
    k < bytes_to_blocks (m : Int) ↔ 4096 * k < m := by
  rw [bytes_to_blocks_ofNat]; omega

theorem findClear_some_spec (bm : Nat → Bool) :
    ∀ k lo i, findClear bm lo k = some i →
      lo ≤ i ∧ i < lo + k ∧ bm i = false ∧ ∀ j, lo ≤ j → j < i → bm j = true := by
  intro k
  induction k with
  | zero => intro lo i h; simp [findClear] at h
  | succ n ih =>
    intro lo i h
    rw [findClear] at h
    by_cases hb : bm lo
    · rw [if_pos hb] at h
      obtain ⟨h1, h2, h3, h4⟩ := ih (lo + 1) i h
      refine ⟨by omega, by omega, h3, ?_⟩
      intro j hj1 hj2
      rcases Nat.eq_or_lt_of_le hj1 with rfl | hlt
      · exact hb
      · exact h4 j hlt hj2
    · rw [if_neg hb] at h
      injection h with h
      subst h
      refine ⟨Nat.le_refl _, by omega, by simpa using hb, ?_⟩
      intro j hj1 hj2; omega

theorem findClear_none_spec (bm : Nat → Bool) :
    ∀ k lo, findClear bm lo k = none →
      ∀ j, lo ≤ j → j < lo + k → bm j = true := by
  intro k
  induction k with
  | zero => intro lo _ j h1 h2; omega
  | succ n ih =>
    intro lo h j hj1 hj2
    rw [findClear] at h
    by_cases hb : bm lo
    · rw [if_pos hb] at h
      rcases Nat.eq_or_lt_of_le hj1 with rfl | hlt
      · exact hb
      · exact ih (lo + 1) h j hlt (by omega)
    · simp [hb] at h

theorem inode_valid_of_validIdx {s : FS} {i : Nat} (h : ValidIdx s i) :
    inode_valid s (some i) = true := by
  obtain ⟨h1, h2, h3, h4⟩ := h
  simp only [inode_valid, ibmGetI, h3]
  rw [if_neg (by omega : ¬((i : Int) < 0))]
  simp only [Int.toNat_natCast, h4, Bool.true_and, bne_iff_ne, ne_eq]
  omega

theorem freeBlockCount_pos {s : FS} {b : Nat} (h1 : 1 ≤ b) (h2 : b < 256)
    (h3 : s.bbm b = false) : 0 < freeBlockCount s := by
  apply Finset.card_pos.mpr
  exact ⟨b, Finset.mem_filter.mpr ⟨Finset.mem_range.mpr h2, h1, h3⟩⟩

theorem freeBlockCount_zero {s : FS}
    (h : ∀ j, 1 ≤ j → j < 256 → s.bbm j = true) : freeBlockCount s = 0 := by
  apply Finset.card_eq_zero.mpr
  apply Finset.filter_eq_empty_iff.mpr
  intro b hb
  simp only [Finset.mem_range] at hb
  rintro ⟨hb1, hb2⟩
  rw [h b hb1 hb] at hb2
  exact Bool.noConfusion hb2

theorem freeBlockCount_set {s : FS} {b : Nat} (h1 : 1 ≤ b) (h2 : b < 256)
    (h3 : s.bbm b = false) (s2 : FS) (hs2 : s2.bbm = bitmap_put s.bbm b true) :
    freeBlockCount s2 + 1 = freeBlockCount s := by
  unfold freeBlockCount
  have hset : (Finset.range 256).filter (fun j => 1 ≤ j ∧ s2.bbm j = false)
      = ((Finset.range 256).filter (fun j => 1 ≤ j ∧ s.bbm j = false)).erase b := by
    ext x
    simp only [Finset.mem_filter, Finset.mem_erase, Finset.mem_range, hs2,
      bitmap_put, upd]
    by_cases hx : x = b
    · subst hx; simp
    · simp [hx]
  rw [hset]
  rw [Finset.card_erase_add_one]
  exact Finset.mem_filter.mpr ⟨Finset.mem_range.mpr h2, h1, h3⟩

theorem alloc_block_none_spec {s : FS} (h : (alloc_block s).2 = none) :
    (alloc_block s).1 = s ∧ freeBlockCount s = 0 := by
  unfold alloc_block at h ⊢
  cases hfc : findClear s.bbm 1 255 with
  | some b => rw [hfc] at h; simp at h
  | none =>
    refine ⟨rfl, freeBlockCount_zero ?_⟩
    intro j hj1 hj2
    exact findClear_none_spec s.bbm 255 1 hfc j hj1 (by omega)

theorem alloc_block_some_spec {s : FS} {b : Nat}
    (h : (alloc_block s).2 = some b) :
    1 ≤ b ∧ b < 256 ∧ s.bbm b = false ∧
    (∀ j, 1 ≤ j → j < b → s.bbm j = true) ∧
    (alloc_block s).1.bbm = bitmap_put s.bbm b true ∧
    (alloc_block s).1.ibm = s.ibm ∧
    (alloc_block s).1.inodes = s.inodes ∧
    (∀ o, (alloc_block s).1.blocks b o = 0) ∧
    (∀ b2, b2 ≠ b → (alloc_block s).1.blocks b2 = s.blocks b2) ∧
    freeBlockCount (alloc_block s).1 + 1 = freeBlockCount s := by
  unfold alloc_block at h ⊢
  cases hfc : findClear s.bbm 1 255 with
  | none => rw [hfc] at h; simp at h
  | some b2 =>
    rw [hfc] at h
    replace h : b2 = b := by simpa using h
    subst h
    obtain ⟨h1, h2, h3, h4⟩ := findClear_some_spec s.bbm 255 1 b2 hfc
    refine ⟨h1, by omega, h3, fun j hj1 hj2 => h4 j hj1 hj2, rfl, rfl, rfl,
      fun o => by simp [upd], fun c hc => by funext o; simp [upd, hc], ?_⟩
    exact freeBlockCount_set h1 (by omega) h3 _ rfl


theorem getD_set_self (l : List Int) (i : Nat) (a : Int) (h : i < l.length) :
    (l.set i a).getD i 0 = a := by
  simp [List.getD_eq_getElem?_getD, List.getElem?_set_eq_of_lt a h]

theorem getD_set_ne (l : List Int) {i j : Nat} (a : Int) (h : j ≠ i) :
    (l.set i a).getD j 0 = l.getD j 0 := by
  simp [List.getD_eq_getElem?_getD, List.getElem?_set_ne (Ne.symm h)]

theorem slotWrite_ibm (s : FS) (sl : Slot) (v : Int) :
    (slotWrite s sl v).ibm = s.ibm := by cases sl <;> rfl

theorem slotWrite_bbm (s : FS) (sl : Slot) (v : Int) :
    (slotWrite s sl v).bbm = s.bbm := by cases sl <;> rfl

theorem slotWrite_ind_inodes (s : FS) (b k : Nat) (v : Int) :
    (slotWrite s (.ind b k) v).inodes = s.inodes := rfl

theorem slotWrite_dir_blocks (s : FS) (i k : Nat) (v : Int) :
    (slotWrite s (.dir i k) v).blocks = s.blocks := rfl

theorem slotWrite_dir_inodes (s : FS) (i k : Nat) (v : Int) (j : Nat) :
    (slotWrite s (.dir i k) v).inodes j =
      if j = i then { s.inodes i with direct := (s.inodes i).direct.set k v }
      else s.inodes j := rfl

theorem slotWrite_ind_blocks_ne (s : FS) (b k : Nat) (v : Int) (b2 : Nat)
    (h : b2 ≠ b) : (slotWrite s (.ind b k) v).blocks b2 = s.blocks b2 := by
  funext o
  exact le32set_blocks_ne_blk s b (4 * k) v b2 o h

theorem inode_valid_congr {s s2 : FS} {i : Nat} (hrec : s2.inodes i = s.inodes i)
    (hibm : ∀ j, s2.ibm j = s.ibm j) :
    inode_valid s2 (some i) = inode_valid s (some i) := by
  simp [inode_valid, ibmGetI, hrec, hibm]

theorem slotVal_dir {s : FS} {i k : Nat} (hk : k < 12) :
    slotVal s i k = (s.inodes i).direct.getD k 0 := by
  simp [slotVal, slotAt, hk, slotRead]

theorem slotVal_ind {s : FS} {i k : Nat} (hk : ¬ k < 12)
    (hind : (s.inodes i).indirect ≠ 0) :
    slotVal s i k =
      sdec (le32get (s.blocks (s.inodes i).indirect.toNat) (4 * (k - 12))) := by
  simp [slotVal, slotAt, hk, hind, slotRead]

theorem slotVal_ind0 {s : FS} {i k : Nat} (hk : ¬ k < 12)
    (hind : (s.inodes i).indirect = 0) : slotVal s i k = 0 := by
  simp [slotVal, slotAt, hk, hind]

theorem inode_get_bnum_eq_slotAt {s : FS} {i k : Nat}
    (hval : inode_valid s (some i) = true) (hk : k < 1036) :
    inode_get_bnum s (some i) (k : Int) = slotAt s i k := by
  unfold inode_get_bnum slotAt
  rw [if_neg (by push_neg; refine ⟨by simp [hval], by omega, by omega⟩)]
  simp only [Int.toNat_natCast]

theorem slotVal_write_self {s : FS} {i k : Nat} {sl : Slot} {v : Int}
    (hdl : (s.inodes i).direct.length = 12) (ha : slotAt s i k = some sl)
    (hv0 : 0 ≤ v) (hv1 : v < 2147483648) :
    slotVal (slotWrite s sl v) i k = v := by
  by_cases h12 : k < 12
  · have hsl : sl = Slot.dir i k := by
      simp [slotAt, h12] at ha; exact ha.symm
    subst hsl
    rw [slotVal_dir h12]
    rw [show (slotWrite s (.dir i k) v).inodes i
        = { s.inodes i with direct := (s.inodes i).direct.set k v } by
      simp [slotWrite_dir_inodes]]
    exact getD_set_self _ _ _ (by rw [hdl]; omega)
  · have hind : (s.inodes i).indirect ≠ 0 := by
      by_contra hc
      simp [slotAt, h12, hc] at ha
    have hsl : sl = Slot.ind (s.inodes i).indirect.toNat (k - 12) := by
      simp [slotAt, h12, hind] at ha; exact ha.symm
    subst hsl
    have hrec : (slotWrite s (.ind (s.inodes i).indirect.toNat (k - 12)) v).inodes
        = s.inodes := slotWrite_ind_inodes ..
    rw [slotVal_ind h12 (by rw [hrec]; exact hind)]
    rw [hrec]
    show sdec (le32get ((le32set s _ _ v).blocks _) (4 * (k - 12))) = v
    rw [le32get_le32set_same]
    exact sdec_emod_self v hv0 hv1

theorem slotVal_write_ne {s : FS} {i k k2 : Nat} {sl : Slot} {v : Int}
    (ha : slotAt s i k = some sl) (hne : k2 ≠ k) :
    slotVal (slotWrite s sl v) i k2 = slotVal s i k2 := by
  by_cases h12 : k < 12
  · have hsl : sl = Slot.dir i k := by
      simp [slotAt, h12] at ha; exact ha.symm
    subst hsl
    have hrec : (slotWrite s (.dir i k) v).inodes i
        = { s.inodes i with direct := (s.inodes i).direct.set k v } := by
      simp [slotWrite_dir_inodes]
    by_cases h12b : k2 < 12
    · rw [slotVal_dir h12b, slotVal_dir h12b, hrec]
      exact getD_set_ne _ _ hne
    · by_cases hind : (s.inodes i).indirect = 0
      · rw [slotVal_ind0 h12b (by rw [hrec]; exact hind),
          slotVal_ind0 h12b hind]
      · rw [slotVal_ind h12b (by rw [hrec]; exact hind),
          slotVal_ind h12b hind, hrec, slotWrite_dir_blocks]
  · have hind : (s.inodes i).indirect ≠ 0 := by
      by_contra hc
      simp [slotAt, h12, hc] at ha
    have hsl : sl = Slot.ind (s.inodes i).indirect.toNat (k - 12) := by
      simp [slotAt, h12, hind] at ha; exact ha.symm
    subst hsl
    have hrec : (slotWrite s (.ind (s.inodes i).indirect.toNat (k - 12)) v).inodes
        = s.inodes := slotWrite_ind_inodes ..
    by_cases h12b : k2 < 12
    · rw [slotVal_dir h12b, slotVal_dir h12b, hrec]
    · rw [slotVal_ind h12b (by rw [hrec]; exact hind),
        slotVal_ind h12b hind, hrec]
      congr 1
      show le32get ((le32set s _ _ v).blocks _) (4 * (k2 - 12))
          = le32get (s.blocks _) (4 * (k2 - 12))
      exact le32get_le32set_ne s _ _ _ v (by omega)

theorem freeBlockCount_congr {s1 s2 : FS} (h : s2.bbm = s1.bbm) :
    freeBlockCount s2 = freeBlockCount s1 := by
  unfold freeBlockCount; rw [h]

theorem alloc_indirect_fail_spec {s : FS} {i : Nat}
    (h : (alloc_indirect s i).2 = -1) :
    (alloc_indirect s i).1 = s ∧ freeBlockCount s = 0 := by
  cases hab : (alloc_block s).2 with
  | none =>
    obtain ⟨he, hf⟩ := alloc_block_none_spec hab
    refine ⟨?_, hf⟩
    unfold alloc_indirect
    rw [← Prod.mk.eta (p := alloc_block s), hab, he]
  | some b =>
    exfalso
    unfold alloc_indirect at h
    rw [← Prod.mk.eta (p := alloc_block s), hab] at h
    simp at h

theorem alloc_indirect_ok_spec {s : FS} {i : Nat}
    (h : (alloc_indirect s i).2 ≠ -1) :
    ∃ b : Nat, 1 ≤ b ∧ b < 256 ∧ s.bbm b = false ∧
      (alloc_indirect s i).1.bbm = bitmap_put s.bbm b true ∧
      (alloc_indirect s i).1.ibm = s.ibm ∧
      (∀ j, j ≠ i → (alloc_indirect s i).1.inodes j = s.inodes j) ∧
      (alloc_indirect s i).1.inodes i
        = { s.inodes i with indirect := (b : Int) } ∧
      (∀ o, (alloc_indirect s i).1.blocks b o = 0) ∧
      (∀ b2, b2 ≠ b → (alloc_indirect s i).1.blocks b2 = s.blocks b2) ∧
      freeBlockCount (alloc_indirect s i).1 + 1 = freeBlockCount s := by
  cases hab : (alloc_block s).2 with
  | none =>
    exfalso
    apply h
    unfold alloc_indirect
    rw [← Prod.mk.eta (p := alloc_block s), hab]
  | some b =>
    obtain ⟨h1, h2, h3, _, h5, h6, h7, h8, h9, h10⟩ := alloc_block_some_spec hab
    have heq : (alloc_indirect s i).1
        = updInode (alloc_block s).1 i (fun r => { r with indirect := (b : Int) }) := by
      unfold alloc_indirect
      rw [← Prod.mk.eta (p := alloc_block s), hab]
    rw [heq]
    refine ⟨b, h1, h2, h3, ?_, ?_, ?_, ?_, ?_, ?_, ?_⟩
    · rw [updInode_bbm]; exact h5
    · rw [updInode_ibm]; exact h6
    · intro j hj
      rw [updInode_inodes, if_neg hj]
      exact congrFun h7 j
    · rw [updInode_inodes, if_pos rfl, congrFun h7 i]
    · intro o
      rw [updInode_blocks]; exact h8 o
    · intro b2 hb2
      rw [updInode_blocks]; exact h9 b2 hb2
    · rw [freeBlockCount_congr (updInode_bbm ..)]
      exact h10


theorem sdec_zero : sdec 0 = 0 := rfl

theorem slotVal_congr {s s2 : FS} {i : Nat} (k : Nat)
    (hrec : s2.inodes i = s.inodes i)
    (hblk : (s.inodes i).indirect ≠ 0 →
      s2.blocks (s.inodes i).indirect.toNat = s.blocks (s.inodes i).indirect.toNat) :
    slotVal s2 i k = slotVal s i k := by
  by_cases h12 : k < 12
  · rw [slotVal_dir h12, slotVal_dir h12, hrec]
  · by_cases hind : (s.inodes i).indirect = 0
    · rw [slotVal_ind0 h12 (by rw [hrec]; exact hind), slotVal_ind0 h12 hind]
    · rw [slotVal_ind h12 (by rw [hrec]; exact hind), slotVal_ind h12 hind, hrec,
        hblk hind]

theorem validIdx_congr {s s2 : FS} {i : Nat} (h : ValidIdx s i)
    (hrec : (s2.inodes i).inum = (s.inodes i).inum) (hibm : s2.ibm i = s.ibm i) :
    ValidIdx s2 i := by
  obtain ⟨h1, h2, h3, h4⟩ := h
  exact ⟨h1, h2, by rw [hrec, h3], by rw [hibm, h4]⟩

theorem growDelta_rfl (s : FS) (i curr : Nat) : GrowDelta s s i curr curr := by
  refine ⟨fun j _ => rfl, rfl, rfl, rfl, rfl, rfl, rfl, fun k _ => rfl,
    fun k hk1 hk2 => by omega, fun _ => rfl, fun h => h, fun h hc => absurd h hc,
    fun b hb => hb, fun b _ hb hb2 => by rw [hb] at hb2; exact absurd hb2 (by simp),
    fun b _ _ => rfl, ?_⟩
  rw [if_neg (by rintro ⟨h1, h2⟩; exact h2 h1)]
  omega

theorem growDelta_trans {s s1 s2 : FS} {i curr c1 m : Nat}
    (hc : curr ≤ c1) (hm : c1 ≤ m)
    (d1 : GrowDelta s s1 i curr c1) (d2 : GrowDelta s1 s2 i c1 m) :
    GrowDelta s s2 i curr m := by
  obtain ⟨a1, a2, a3, a4, a5, a6, a7, a8, a9, a10, a11, a12, a13, a14, a15, a16⟩ := d1
  obtain ⟨b1, b2, b3, b4, b5, b6, b7, b8, b9, b10, b11, b12, b13, b14, b15, b16⟩ := d2
  have hmono1c : ∀ b, s1.bbm b = false → s.bbm b = false := by
    intro b hb
    cases hsb : s.bbm b with
    | false => rfl
    | true => rw [a13 b hsb] at hb; exact absurd hb (by simp)
  refine ⟨?_, ?_, ?_, ?_, ?_, ?_, ?_, ?_, ?_, ?_, ?_, ?_, ?_, ?_, ?_, ?_⟩
  · intro j hj; rw [b1 j hj, a1 j hj]
  · rw [b2, a2]
  · rw [b3, a3]
  · rw [b4, a4]
  · rw [b5, a5]
  · rw [b6, a6]
  · rw [b7, a7]
  · intro k hk; rw [b8 k (by omega), a8 k hk]
  · intro k hk1 hk2
    by_cases hkc : k < c1
    · rw [b8 k hkc]; exact a9 k hk1 hkc
    · exact hmono1c _ (b9 k (by omega) hk2)
  · intro hind
    have h1 := a10 hind
    rw [b10 (by rw [h1]; exact hind), h1]
  · intro hind
    exact a11 (b11 hind)
  · intro h0 h2
    by_cases h1 : (s1.inodes i).indirect = 0
    · exact hmono1c _ (b12 h1 h2)
    · rw [b10 h1]
      exact a12 h0 h1
  · intro b hb; exact b13 b (a13 b hb)
  · intro b hblt hb2 hb0
    cases hb1 : s1.bbm b with
    | true =>
      rcases a14 b hblt hb1 hb0 with ⟨k, hk1, hk2, hk3⟩ | ⟨hI0, hI1, hIb⟩
      · exact Or.inl ⟨k, hk1, by omega, by rw [b8 k hk2]; exact hk3⟩
      · exact Or.inr ⟨hI0, by rw [b10 hI1]; exact hI1, by rw [b10 hI1]; exact hIb⟩
    | false =>
      rcases b14 b hblt hb2 hb1 with ⟨k, hk1, hk2, hk3⟩ | ⟨hI1, hI2, hIb⟩
      · exact Or.inl ⟨k, by omega, hk2, hk3⟩
      · exact Or.inr ⟨a11 hI1, hI2, hIb⟩
  · intro b hb hside
    have hstep2 : s2.blocks b = s1.blocks b := b15 b (a13 b hb) hside
    have hstep1 : s1.blocks b = s.blocks b := by
      apply a15 b hb
      by_cases h1 : (s1.inodes i).indirect = 0
      · exact Or.inl h1
      · rcases hside with h2 | h2
        · rw [b10 h1] at h2; exact absurd h2 h1
        · rw [b10 h1] at h2; exact Or.inr h2
    rw [hstep2, hstep1]
  · have hmm : m - curr = (m - c1) + (c1 - curr) := by omega
    by_cases hI0 : (s.inodes i).indirect = 0
    · by_cases hI1 : (s1.inodes i).indirect = 0
      · rw [if_neg (by rintro ⟨_, h⟩; exact h hI1)] at a16
        by_cases hI2 : (s2.inodes i).indirect = 0
        · rw [if_neg (by rintro ⟨_, h⟩; exact h hI2)] at b16 ⊢
          omega
        · rw [if_pos ⟨hI1, hI2⟩] at b16
          rw [if_pos ⟨hI0, hI2⟩]
          omega
      · rw [if_pos ⟨hI0, hI1⟩] at a16
        rw [if_neg (by rintro ⟨h, _⟩; exact hI1 h)] at b16
        rw [if_pos ⟨hI0, by rw [b10 hI1]; exact hI1⟩]
        omega
    · have hI1 : (s1.inodes i).indirect ≠ 0 := by rw [a10 hI0]; exact hI0
      rw [if_neg (by rintro ⟨h, _⟩; exact hI0 h)] at a16
      rw [if_neg (by rintro ⟨h, _⟩; exact hI1 h)] at b16
      rw [if_neg (by rintro ⟨h, _⟩; exact hI0 h)]
      omega


theorem slotAt_cases {s : FS} {i k : Nat} {slot : Slot}
    (ha : slotAt s i k = some slot) :
    (k < 12 ∧ slot = .dir i k) ∨
    (¬ k < 12 ∧ (s.inodes i).indirect ≠ 0 ∧
      slot = .ind (s.inodes i).indirect.toNat (k - 12)) := by
  by_cases h12 : k < 12
  · left
    refine ⟨h12, ?_⟩
    simp [slotAt, h12] at ha
    exact ha.symm
  · right
    by_cases hind : (s.inodes i).indirect = 0
    · simp [slotAt, h12, hind] at ha
    · refine ⟨h12, hind, ?_⟩
      simp [slotAt, h12, hind] at ha
      exact ha.symm

theorem slotWrite_fields {s : FS} {i k : Nat} {slot : Slot} {v : Int}
    (ha : slotAt s i k = some slot) :
    (∀ j, j ≠ i → (slotWrite s slot v).inodes j = s.inodes j) ∧
    ((slotWrite s slot v).inodes i).inum = (s.inodes i).inum ∧
    ((slotWrite s slot v).inodes i).mode = (s.inodes i).mode ∧
    ((slotWrite s slot v).inodes i).links = (s.inodes i).links ∧
    ((slotWrite s slot v).inodes i).refs = (s.inodes i).refs ∧
    ((slotWrite s slot v).inodes i).size = (s.inodes i).size ∧
    ((slotWrite s slot v).inodes i).indirect = (s.inodes i).indirect ∧
    ((slotWrite s slot v).inodes i).direct.length = (s.inodes i).direct.length ∧
    (∀ b2, ((s.inodes i).indirect = 0 ∨ b2 ≠ (s.inodes i).indirect.toNat) →
      (slotWrite s slot v).blocks b2 = s.blocks b2) := by
  rcases slotAt_cases ha with ⟨h12, rfl⟩ | ⟨h12, hind, rfl⟩
  · refine ⟨?_, ?_, ?_, ?_, ?_, ?_, ?_, ?_, ?_⟩
    · intro j hj
      rw [slotWrite_dir_inodes, if_neg hj]
    · rw [slotWrite_dir_inodes, if_pos rfl]
    · rw [slotWrite_dir_inodes, if_pos rfl]
    · rw [slotWrite_dir_inodes, if_pos rfl]
    · rw [slotWrite_dir_inodes, if_pos rfl]
    · rw [slotWrite_dir_inodes, if_pos rfl]
    · rw [slotWrite_dir_inodes, if_pos rfl]
    · rw [slotWrite_dir_inodes, if_pos rfl]
      exact List.length_set ..
    · intro b2 _
      rw [slotWrite_dir_blocks]
  · refine ⟨fun j _ => by rw [slotWrite_ind_inodes], by rw [slotWrite_ind_inodes],
      by rw [slotWrite_ind_inodes], by rw [slotWrite_ind_inodes],
      by rw [slotWrite_ind_inodes], by rw [slotWrite_ind_inodes],
      by rw [slotWrite_ind_inodes], by rw [slotWrite_ind_inodes], ?_⟩
    intro b2 hb2
    rcases hb2 with hb2 | hb2
    · exact absurd hb2 hind
    · exact slotWrite_ind_blocks_ne s _ _ v b2 hb2

theorem grow_step_spec {s1 : FS} {i curr b : Nat}
    (hinv : GrowInv s1 i curr)
    (hstep : 12 ≤ curr → (s1.inodes i).indirect ≠ 0)
    (hb : (alloc_block s1).2 = some b) :
    ∃ slot, inode_get_bnum (alloc_block s1).1 (some i) (curr : Int) = some slot ∧
      GrowInv (slotWrite (alloc_block s1).1 slot (b : Int)) i (curr + 1) ∧
      GrowDelta s1 (slotWrite (alloc_block s1).1 slot (b : Int)) i curr (curr + 1) := by
  obtain ⟨hval, hdl, hmap, hclean, hindp, hc12, hnd, hndi, hr0, hr1, hr2, hr3,
    hr4, hfit⟩ := hinv
  obtain ⟨c1, c2, c3, _, c5, c6, c7, c8, c9, c10⟩ := alloc_block_some_spec hb
  set s2 := (alloc_block s1).1 with hs2
  have hb5 : 5 ≤ b := by
    by_contra hcon
    push_neg at hcon
    have hb14 : b = 1 ∨ b = 2 ∨ b = 3 ∨ b = 4 := by omega
    rcases hb14 with rfl | rfl | rfl | rfl
    · rw [hr1] at c3; exact absurd c3 (by simp)
    · rw [hr2] at c3; exact absurd c3 (by simp)
    · rw [hr3] at c3; exact absurd c3 (by simp)
    · rw [hr4] at c3; exact absurd c3 (by simp)
  have hfree1 : 0 < freeBlockCount s1 := freeBlockCount_pos c1 c2 c3
  have hcurrlt : curr < 1036 := by omega
  have hval2 : ValidIdx s2 i := validIdx_congr hval (by rw [c7]) (by rw [c6])
  have hind2 : (s2.inodes i).indirect = (s1.inodes i).indirect := by rw [c7]
  have hbnum : inode_get_bnum s2 (some i) (curr : Int) = slotAt s2 i curr :=
    inode_get_bnum_eq_slotAt (inode_valid_of_validIdx hval2) hcurrlt
  have hslot : ∃ slot, slotAt s2 i curr = some slot := by
    by_cases h12 : curr < 12
    · exact ⟨.dir i curr, by simp [slotAt, h12]⟩
    · have hindne := hstep (by omega)
      refine ⟨.ind (s2.inodes i).indirect.toNat (curr - 12), ?_⟩
      have h2 : (s2.inodes i).indirect ≠ 0 := by rw [hind2]; exact hindne
      simp [slotAt, h12, h2]
  obtain ⟨slot, ha⟩ := hslot
  refine ⟨slot, by rw [hbnum, ha], ?_⟩
  set s3 := slotWrite s2 slot (b : Int) with hs3
  obtain ⟨f1, f2, f3, f4, f5, f6, f7, f8, f9⟩ := slotWrite_fields (v := (b : Int)) ha
  have hind3 : (s3.inodes i).indirect = (s1.inodes i).indirect := by
    rw [hs3, f7, hind2]
  have hbbm3 : s3.bbm = bitmap_put s1.bbm b true := by
    rw [hs3, slotWrite_bbm, c5]
  have hibm3 : s3.ibm = s1.ibm := by rw [hs3, slotWrite_ibm, c6]
  have hmark3 : ∀ x, s1.bbm x = true → s3.bbm x = true := by
    intro x hx
    rw [hbbm3]
    by_cases h : x = b
    · simp [bitmap_put, upd, h]
    · simp only [bitmap_put, upd, if_neg h]; exact hx
  have hbval : s3.bbm b = true := by
    rw [hbbm3]; simp [bitmap_put, upd]
  have hindmark : (s1.inodes i).indirect ≠ 0 →
      (s1.inodes i).indirect.toNat ≠ b := by
    intro hind hcon
    have hm := (hindp hind).2.2.1
    rw [hcon, c3] at hm
    exact absurd hm (by simp)
  have hs2blk : (s1.inodes i).indirect ≠ 0 →
      s2.blocks (s1.inodes i).indirect.toNat = s1.blocks (s1.inodes i).indirect.toNat :=
    fun hind => c9 _ (hindmark hind)
  have hpres2 : ∀ k, slotVal s2 i k = slotVal s1 i k :=
    fun k => slotVal_congr k (by rw [c7]) hs2blk
  have hpres : ∀ k, k ≠ curr → slotVal s3 i k = slotVal s1 i k := by
    intro k hk
    rw [hs3, slotVal_write_ne ha hk, hpres2]
  have hcurrv : slotVal s3 i curr = (b : Int) := by
    rw [hs3]
    exact slotVal_write_self (by rw [c7]; exact hdl) ha (Int.natCast_nonneg b)
      (by exact_mod_cast (show b < 2147483648 by omega))
  have hfc3 : freeBlockCount s3 + 1 = freeBlockCount s1 := by
    have he : freeBlockCount s3 = freeBlockCount s2 :=
      freeBlockCount_congr (by rw [hs3, slotWrite_bbm])
    rw [he]; exact c10
  have hmapne : ∀ v : Int, 5 ≤ v → v < 256 → s1.bbm v.toNat = true → v ≠ (b : Int) := by
    intro v hv1 hv2 hv3 hcon
    rw [hcon] at hv3
    rw [Int.toNat_natCast] at hv3
    rw [c3] at hv3
    exact absurd hv3 (by simp)
  constructor
  · -- GrowInv s3 i (curr + 1)
    refine ⟨validIdx_congr hval (by rw [hs3, f2, c7]) (by rw [hibm3]),
      by rw [hs3, f8, c7]; exact hdl, ?_, ?_, ?_, ?_, ?_, ?_, ?_, ?_, ?_, ?_, ?_, ?_⟩
    · intro k hk
      by_cases hkc : k = curr
      · subst hkc
        rw [hcurrv]
        refine ⟨by exact_mod_cast hb5, by exact_mod_cast c2, ?_⟩
        rw [Int.toNat_natCast]
        exact hbval
      · rw [hpres k hkc]
        obtain ⟨m1, m2, m3⟩ := hmap k (by omega)
        exact ⟨m1, m2, hmark3 _ m3⟩
    · intro k hk1 hk2
      rw [← slotVal_dir hk2, hpres k (by omega), slotVal_dir hk2]
      exact hclean k (by omega) hk2
    · intro hindne
      rw [hind3] at hindne
      obtain ⟨p1, p2, p3, p4⟩ := hindp hindne
      refine ⟨by rw [hind3]; exact p1, by rw [hind3]; exact p2,
        by rw [hind3]; exact hmark3 _ p3, ?_⟩
      intro k hk1 hk2 hk3
      rw [hpres k (by omega)]
      exact p4 k (by omega) hk2 hk3
    · intro h
      rw [hind3]
      exact hstep (by omega)
    · intro k k2 hk hk2 hne
      by_cases hkc : k = curr
      · subst hkc
        rw [hcurrv, hpres k2 (by omega)]
        obtain ⟨m1, m2, m3⟩ := hmap k2 (by omega)
        exact fun hcon => hmapne _ m1 m2 m3 hcon.symm
      · by_cases hkc2 : k2 = curr
        · subst hkc2
          rw [hcurrv, hpres k hkc]
          obtain ⟨m1, m2, m3⟩ := hmap k (by omega)
          exact hmapne _ m1 m2 m3
        · rw [hpres k hkc, hpres k2 hkc2]
          exact hnd k k2 (by omega) (by omega) hne
    · intro k hk
      rw [hind3]
      by_cases hkc : k = curr
      · subst hkc
        rw [hcurrv]
        by_cases hind : (s1.inodes i).indirect = 0
        · rw [hind]
          exact_mod_cast (show b ≠ 0 by omega)
        · obtain ⟨p1, p2, p3, _⟩ := hindp hind
          exact fun hcon => hmapne _ p1 p2 p3 hcon.symm
      · rw [hpres k hkc]
        exact hndi k (by omega)
    · exact hmark3 _ hr0
    · exact hmark3 _ hr1
    · exact hmark3 _ hr2
    · exact hmark3 _ hr3
    · exact hmark3 _ hr4
    · omega
  · -- GrowDelta s1 s3 i curr (curr + 1)
    refine ⟨?_, hibm3, by rw [hs3, f2, c7], by rw [hs3, f3, c7],
      by rw [hs3, f4, c7], by rw [hs3, f5, c7], by rw [hs3, f6, c7],
      ?_, ?_, fun _ => hind3, by rw [hind3]; exact id, ?_, hmark3, ?_, ?_, ?_⟩
    · intro j hj
      rw [hs3, f1 j hj, c7]
    · intro k hk
      exact hpres k (by omega)
    · intro k hk1 hk2
      have hkc : k = curr := by omega
      subst hkc
      rw [hcurrv, Int.toNat_natCast]
      exact c3
    · intro h0 hne
      rw [hind3, h0] at hne
      exact absurd rfl hne
    · intro b2 hlt h3t h1f
      rw [hbbm3] at h3t
      by_cases hc : b2 = b
      · subst hc
        exact Or.inl ⟨curr, Nat.le_refl _, by omega, by rw [hcurrv, Int.toNat_natCast]⟩
      · simp only [bitmap_put, upd, if_neg hc] at h3t
        rw [h1f] at h3t
        exact absurd h3t (by simp)
    · intro b2 hmk hside
      have hstep3 : s3.blocks b2 = s2.blocks b2 := by
        rw [hs3]
        apply f9 b2
        rw [hind3] at hside
        rcases hside with h | h
        · exact Or.inl (by rw [hind2, h])
        · exact Or.inr (by rw [hind2]; exact h)
      have hstep2 : s2.blocks b2 = s1.blocks b2 := by
        apply c9
        intro hcon
        rw [hcon, c3] at hmk
        exact absurd hmk (by simp)
      rw [hstep3, hstep2]
    · rw [if_neg (by rintro ⟨h0, hne⟩; rw [hind3, h0] at hne; exact absurd rfl hne)]
      omega


theorem grow_ind_spec {s : FS} {i curr : Nat}
    (hinv : GrowInv s i curr)
    (hni : 12 ≤ curr ∧ (s.inodes i).indirect = 0)
    (hok : (alloc_indirect s i).2 ≠ -1) :
    GrowInv (alloc_indirect s i).1 i curr ∧
    GrowDelta s (alloc_indirect s i).1 i curr curr ∧
    ((alloc_indirect s i).1.inodes i).indirect ≠ 0 := by
  obtain ⟨hval, hdl, hmap, hclean, hindp, hc12, hnd, hndi, hr0, hr1, hr2, hr3,
    hr4, hfit⟩ := hinv
  obtain ⟨b0, c1, c2, c3, c5, c6, c7, c8, c9, c10, c11⟩ := alloc_indirect_ok_spec hok
  set s1 := (alloc_indirect s i).1 with hs1
  have hcurr12 : curr = 12 := by
    rcases Nat.lt_or_ge 12 curr with h | h
    · exact absurd (hc12 h) (by simp [hni.2])
    · omega
  have hb5 : 5 ≤ b0 := by
    by_contra hcon
    push_neg at hcon
    have hb14 : b0 = 1 ∨ b0 = 2 ∨ b0 = 3 ∨ b0 = 4 := by omega
    rcases hb14 with rfl | rfl | rfl | rfl
    · rw [hr1] at c3; exact absurd c3 (by simp)
    · rw [hr2] at c3; exact absurd c3 (by simp)
    · rw [hr3] at c3; exact absurd c3 (by simp)
    · rw [hr4] at c3; exact absurd c3 (by simp)
  have hrec1 : s1.inodes i = { s.inodes i with indirect := (b0 : Int) } := c8
  have hind1 : (s1.inodes i).indirect = (b0 : Int) := by rw [hrec1]
  have hindne : (s1.inodes i).indirect ≠ 0 := by
    rw [hind1]
    exact_mod_cast (show b0 ≠ 0 by omega)
  have hdir1 : (s1.inodes i).direct = (s.inodes i).direct := by rw [hrec1]
  have hmark1 : ∀ x, s.bbm x = true → s1.bbm x = true := by
    intro x hx
    rw [c5]
    by_cases h : x = b0
    · simp [bitmap_put, upd, h]
    · simp only [bitmap_put, upd, if_neg h]; exact hx
  have hpres1 : ∀ k, k < 12 → slotVal s1 i k = slotVal s i k := by
    intro k hk
    rw [slotVal_dir hk, slotVal_dir hk, hdir1]
  have hzero1 : ∀ k, 12 ≤ k → k < 1036 → slotVal s1 i k = 0 := by
    intro k hk1 hk2
    rw [slotVal_ind (by omega) hindne, hind1, Int.toNat_natCast]
    have hz : ∀ o, s1.blocks b0 o = 0 := c9
    simp [le32get, hz, sdec_zero]
  have hfc1 : freeBlockCount s1 + 1 = freeBlockCount s := c11
  refine ⟨⟨validIdx_congr hval (by rw [hrec1]) (by rw [c6]), by rw [hdir1]; exact hdl,
      ?_, ?_, ?_, ?_, ?_, ?_, hmark1 _ hr0, hmark1 _ hr1, hmark1 _ hr2,
      hmark1 _ hr3, hmark1 _ hr4, by omega⟩, ?_, hindne⟩
  · intro k hk
    rw [hpres1 k (by omega)]
    obtain ⟨m1, m2, m3⟩ := hmap k hk
    exact ⟨m1, m2, hmark1 _ m3⟩
  · intro k hk1 hk2
    rw [hdir1]
    exact hclean k hk1 hk2
  · intro _
    refine ⟨by rw [hind1]; exact_mod_cast hb5, by rw [hind1]; exact_mod_cast c2, ?_, ?_⟩
    · rw [hind1, Int.toNat_natCast, c5]
      simp [bitmap_put, upd]
    · intro k _ hk2 hk3
      exact hzero1 k hk2 hk3
  · intro h
    exact hindne
  · intro k k2 hk hk2 hne
    rw [hpres1 k (by omega), hpres1 k2 (by omega)]
    exact hnd k k2 hk hk2 hne
  · intro k hk
    rw [hpres1 k (by omega), hind1]
    obtain ⟨m1, m2, m3⟩ := hmap k hk
    intro hcon
    rw [hcon, Int.toNat_natCast, c3] at m3
    exact absurd m3 (by simp)
  · -- GrowDelta s s1 i curr curr
    refine ⟨fun j hj => c7 j hj, c6, by rw [hrec1], by rw [hrec1], by rw [hrec1],
      by rw [hrec1], by rw [hrec1], ?_, fun k hk1 hk2 => by omega,
      fun h => absurd hni.2 h, fun h => absurd h hindne, ?_, hmark1, ?_, ?_, ?_⟩
    · intro k hk
      exact hpres1 k (by omega)
    · intro _ _
      rw [hind1, Int.toNat_natCast]
      exact c3
    · intro b2 hlt h1t h0f
      rw [c5] at h1t
      by_cases hc : b2 = b0
      · subst hc
        exact Or.inr ⟨hni.2, hindne, by rw [hind1, Int.toNat_natCast]⟩
      · simp only [bitmap_put, upd, if_neg hc] at h1t
        rw [h0f] at h1t
        exact absurd h1t (by simp)
    · intro b2 hmk hside
      apply c10
      intro hcon
      rcases hside with h | h
      · exact hindne h
      · rw [hind1, Int.toNat_natCast] at h
        exact h hcon
    · rw [if_pos ⟨hni.2, hindne⟩]
      omega

theorem growLoop_spec (i : Nat) :
    ∀ fuel s curr, GrowInv s i curr →
      ∃ s2 m ok, growLoop s i curr fuel = some (s2, m, ok) ∧
        curr ≤ m ∧ m ≤ curr + fuel ∧ GrowInv s2 i m ∧ GrowDelta s s2 i curr m ∧
        (ok = true → m = curr + fuel) ∧ (ok = false → freeBlockCount s2 = 0) := by
  intro fuel
  induction fuel with
  | zero =>
    intro s curr hinv
    exact ⟨s, curr, true, rfl, Nat.le_refl _, by omega, hinv,
      growDelta_rfl s i curr, fun _ => by omega, fun h => by simp at h⟩
  | succ n ih =>
    intro s curr hinv
    by_cases hni : 12 ≤ curr ∧ (s.inodes i).indirect = 0
    · by_cases hf : (alloc_indirect s i).2 = -1
      · obtain ⟨he, hfc⟩ := alloc_indirect_fail_spec hf
        refine ⟨s, curr, false, ?_, Nat.le_refl _, by omega, hinv,
          growDelta_rfl s i curr, fun h => by simp at h, fun _ => hfc⟩
        simp only [growLoop]
        rw [if_pos hni, if_pos hf, he]
      · obtain ⟨hinv1, hd1, hind1⟩ := grow_ind_spec hinv hni hf
        cases hb : (alloc_block (alloc_indirect s i).1).2 with
        | none =>
          obtain ⟨he, hfc⟩ := alloc_block_none_spec hb
          refine ⟨(alloc_indirect s i).1, curr, false, ?_, Nat.le_refl _, by omega,
            hinv1, hd1, fun h => by simp at h, fun _ => hfc⟩
          simp only [growLoop]
          rw [if_pos hni, if_neg hf]
          split
          · next s2x heq =>
            have hs2x : s2x = (alloc_indirect s i).1 := by
              have h2 := congrArg Prod.fst heq
              simp only at h2
              rw [← h2, he]
            rw [hs2x]
          · next s2x bx heq =>
            have h2 := congrArg Prod.snd heq
            simp only at h2
            rw [hb] at h2
            simp at h2
        | some b =>
          obtain ⟨slot, hbnum, hinv3, hd3⟩ :=
            grow_step_spec hinv1 (fun _ => hind1) hb
          obtain ⟨s2, m, ok, hrun, hm1, hm2, hinv2, hd2, hok, hfail⟩ :=
            ih (slotWrite (alloc_block (alloc_indirect s i).1).1 slot (b : Int))
              (curr + 1) hinv3
          refine ⟨s2, m, ok, ?_, by omega, by omega, hinv2, ?_,
            fun h => by have := hok h; omega, hfail⟩
          · simp only [growLoop]
            rw [if_pos hni, if_neg hf]
            split
            · next s2x heq =>
              have h2 := congrArg Prod.snd heq
              simp only at h2
              rw [hb] at h2
              simp at h2
            · next s2x bx heq =>
              have hx1 : s2x = (alloc_block (alloc_indirect s i).1).1 := by
                have h2 := congrArg Prod.fst heq
                simp only at h2
                rw [← h2]
              have hx2 : bx = b := by
                have h2 := congrArg Prod.snd heq
                simp only at h2
                rw [h2] at hb
                simpa using hb
              subst hx1
              subst hx2
              rw [hbnum]
              exact hrun
          · exact growDelta_trans (Nat.le_refl _) (by omega) hd1
              (growDelta_trans (by omega) (by omega) hd3 hd2)
    · have hstep : 12 ≤ curr → (s.inodes i).indirect ≠ 0 := by
        intro h12 hc
        exact hni ⟨h12, hc⟩
      cases hb : (alloc_block s).2 with
      | none =>
        obtain ⟨he, hfc⟩ := alloc_block_none_spec hb
        refine ⟨s, curr, false, ?_, Nat.le_refl _, by omega, hinv,
          growDelta_rfl s i curr, fun h => by simp at h, fun _ => hfc⟩
        simp only [growLoop]
        rw [if_neg hni]
        rw [if_neg (by norm_num : ¬((s, (0 : Int)).2 = -1))]
        split
        · next s2x heq =>
          have hs2x : s2x = s := by
            have h2 := congrArg Prod.fst heq
            simp only at h2
            rw [← h2, he]
          rw [hs2x]
        · next s2x bx heq =>
          have h2 := congrArg Prod.snd heq
          simp only at h2
          rw [hb] at h2
          simp at h2
      | some b =>
        obtain ⟨slot, hbnum, hinv3, hd3⟩ := grow_step_spec hinv hstep hb
        obtain ⟨s2, m, ok, hrun, hm1, hm2, hinv2, hd2, hok, hfail⟩ :=
          ih (slotWrite (alloc_block s).1 slot (b : Int)) (curr + 1) hinv3
        refine ⟨s2, m, ok, ?_, by omega, by omega, hinv2, ?_,
          fun h => by have := hok h; omega, hfail⟩
        · simp only [growLoop]
          rw [if_neg hni]
          rw [if_neg (by norm_num : ¬((s, (0 : Int)).2 = -1))]
          split
          · next s2x heq =>
            have h2 := congrArg Prod.snd heq
            simp only at h2
            rw [hb] at h2
            simp at h2
          · next s2x bx heq =>
            have hx1 : s2x = (alloc_block s).1 := by
              have h2 := congrArg Prod.fst heq
              simp only at h2
              rw [← h2]
            have hx2 : bx = b := by
              have h2 := congrArg Prod.snd heq
              simp only at h2
              rw [h2] at hb
              simpa using hb
            subst hx1
            subst hx2
            rw [hbnum]
            exact hrun
        · exact growDelta_trans (by omega) (by omega) hd3 hd2

/-- `bytes_to_blocks` is monotone. -/
theorem bytes_to_blocks_mono {a b : Int} (h : a ≤ b) :
    bytes_to_blocks a ≤ bytes_to_blocks b := by
  unfold bytes_to_blocks
  exact Int.toNat_le_toNat (Int.ediv_le_ediv (by norm_num) (by omega))

/-- Full specification of `grow_inode` on a valid inode with a size request
at or above the current size, starting from the loop invariant: the loop
result `s2, m, ok` satisfies the delta relation, and `grow_inode` returns
`0` with the requested size on success and `-1` with the size rounded to
the `m` blocks actually held on allocation failure. -/
theorem grow_inode_spec {s : FS} {i : Nat} {size : Int}
    (hv : inode_valid s (some i) = true)
    (hsz : (s.inodes i).size ≤ size)
    (hinv : GrowInv s i (bytes_to_blocks (s.inodes i).size)) :
    ∃ s2 m ok,
      bytes_to_blocks (s.inodes i).size ≤ m ∧ m ≤ bytes_to_blocks size ∧
      GrowInv s2 i m ∧
      GrowDelta s s2 i (bytes_to_blocks (s.inodes i).size) m ∧
      (ok = true → m = bytes_to_blocks size) ∧
      (ok = false → freeBlockCount s2 = 0) ∧
      grow_inode s (some i) size =
        some (if ok then (setSize s2 i size, 0)
              else (setSize s2 i (4096 * (m : Int)), -1)) := by
  have hmono : bytes_to_blocks (s.inodes i).size ≤ bytes_to_blocks size :=
    bytes_to_blocks_mono hsz
  obtain ⟨s2, m, ok, hrun, hm1, hm2, hinv2, hd2, hok, hfail⟩ :=
    growLoop_spec i (bytes_to_blocks size - bytes_to_blocks (s.inodes i).size)
      s (bytes_to_blocks (s.inodes i).size) hinv
  refine ⟨s2, m, ok, hm1, by omega, hinv2, hd2,
    fun h => by have := hok h; omega, hfail, ?_⟩
  have hc : ¬(¬(inode_valid s (some i) = true) ∨ size < (s.inodes i).size) := by
    intro h
    rcases h with h1 | h2
    · exact h1 hv
    · exact absurd h2 (not_lt.mpr hsz)
  simp only [grow_inode]
  rw [if_neg hc]
  simp only [hrun]
  cases ok
  · simp
  · simp

/-- The loop invariant of `grow_inode` holds for the clean regular file of
`fmtFile` at block count 0. -/
theorem growInv_fmtFile : GrowInv fmtFile 2 0 := by
  refine ⟨⟨by decide, by decide, by decide, by decide⟩, by decide,
    fun k hk => absurd hk (Nat.not_lt_zero k), ?_, ?_,
    fun h => absurd h (by omega),
    fun k k2 hk _ _ => absurd hk (Nat.not_lt_zero k),
    fun k hk => absurd hk (Nat.not_lt_zero k),
    by decide, by decide, by decide, by decide, by decide, ?_⟩
  · intro k _ hk2
    have h : (fmtFile.inodes 2).direct = List.replicate 12 0 := rfl
    rw [h]
    interval_cases k <;> rfl
  · intro h
    exact absurd rfl h
  · have h : freeBlockCount fmtFile = 251 := by decide
    omega

/-- C5: on a valid inode with `new_size` at or above the current size (and a
well-formed block mapping), `grow_inode` either succeeds, setting
`size := new_size`, or fails with `-1` after allocating `m` blocks because
the free-block pool is exhausted, leaving the inode holding exactly the
blocks successfully allocated (`GrowInv`/`GrowDelta`: slots `[0, m)` mapped
to the freshly allocated blocks, later slots clean, nothing else changed)
with `size` set to `m * BLOCK_SIZE`. -/
theorem c5_grow_partial_failure_observable {s : FS} {i : Nat} {size : Int}
    (hv : inode_valid s (some i) = true)
    (hsz : (s.inodes i).size ≤ size)
    (hinv : GrowInv s i (bytes_to_blocks (s.inodes i).size)) :
    ∃ s2 m ok,
      grow_inode s (some i) size =
        some (if ok then (setSize s2 i size, 0)
              else (setSize s2 i (4096 * (m : Int)), -1)) ∧
      bytes_to_blocks (s.inodes i).size ≤ m ∧ m ≤ bytes_to_blocks size ∧
      GrowInv s2 i m ∧
      GrowDelta s s2 i (bytes_to_blocks (s.inodes i).size) m ∧
      (ok = true → m = bytes_to_blocks size) ∧
      (ok = false → freeBlockCount s2 = 0) := by
  obtain ⟨s2, m, ok, h1, h2, h3, h4, h5, h6, h7⟩ := grow_inode_spec hv hsz hinv
  exact ⟨s2, m, ok, h7, h1, h2, h3, h4, h5, h6⟩

/-- Witness for C5 at the concrete state `fmtFile`, inode 2, size 4096. -/
theorem c5_grow_partial_failure_observable_witness :
    inode_valid fmtFile (some 2) = true ∧
    (fmtFile.inodes 2).size ≤ 4096 ∧
    GrowInv fmtFile 2 (bytes_to_blocks (fmtFile.inodes 2).size) ∧
    (∃ s2 m ok,
      grow_inode fmtFile (some 2) 4096 =
        some (if ok then (setSize s2 2 4096, 0)
              else (setSize s2 2 (4096 * (m : Int)), -1)) ∧
      bytes_to_blocks (fmtFile.inodes 2).size ≤ m ∧
      m ≤ bytes_to_blocks 4096 ∧
      GrowInv s2 2 m ∧
      GrowDelta fmtFile s2 2 (bytes_to_blocks (fmtFile.inodes 2).size) m ∧
      (ok = true → m = bytes_to_blocks 4096) ∧
      (ok = false → freeBlockCount s2 = 0)) :=
  ⟨by decide, by decide, growInv_fmtFile,
    c5_grow_partial_failure_observable (by decide) (by decide) growInv_fmtFile⟩

/-- C6 amended: `alloc_inode mode` returns the lowest clear inode-bitmap bit
`i` in `[2, INODE_COUNT)`, sets that bit and writes `mode` and `inum = i`
into the record, leaving the record's `size`, `links`, `refs`, `direct` and
`indirect` fields — and every other inode record, the block bitmap and the
block contents — unchanged (it does *not* zero them); it returns `-1` when
every bit in `[2, INODE_COUNT)` is set. -/
theorem c6_alloc_inode_amended (s : FS) (mode : Int) :
    (∃ i, 2 ≤ i ∧ i < 256 ∧ s.ibm i = false ∧
      (∀ j, 2 ≤ j → j < i → s.ibm j = true) ∧
      (alloc_inode s mode).2 = (i : Int) ∧
      (alloc_inode s mode).1.ibm = bitmap_put s.ibm i true ∧
      ((alloc_inode s mode).1.inodes i).mode = mode ∧
      ((alloc_inode s mode).1.inodes i).inum = (i : Int) ∧
      ((alloc_inode s mode).1.inodes i).size = (s.inodes i).size ∧
      ((alloc_inode s mode).1.inodes i).links = (s.inodes i).links ∧
      ((alloc_inode s mode).1.inodes i).refs = (s.inodes i).refs ∧
      ((alloc_inode s mode).1.inodes i).direct = (s.inodes i).direct ∧
      ((alloc_inode s mode).1.inodes i).indirect = (s.inodes i).indirect ∧
      (∀ j, j ≠ i → (alloc_inode s mode).1.inodes j = s.inodes j) ∧
      (alloc_inode s mode).1.bbm = s.bbm ∧
      (alloc_inode s mode).1.blocks = s.blocks) ∨
    ((∀ j, 2 ≤ j → j < 256 → s.ibm j = true) ∧ alloc_inode s mode = (s, -1)) := by
  cases h : findClear s.ibm 2 254 with
  | none =>
    right
    have hall := findClear_none_spec s.ibm 254 2 h
    refine ⟨fun j hj1 hj2 => hall j hj1 (by omega), ?_⟩
    simp [alloc_inode, h]
  | some i =>
    left
    obtain ⟨h1, h2, h3, h4⟩ := findClear_some_spec s.ibm 254 2 i h
    have he : alloc_inode s mode =
        ({ updInode s i (fun r => { r with mode := mode, inum := (i : Int) }) with
            ibm := bitmap_put s.ibm i true }, (i : Int)) := by
      simp [alloc_inode, h]
    have hrec : (alloc_inode s mode).1.inodes i
        = { s.inodes i with mode := mode, inum := (i : Int) } := by
      rw [he]
      show upd s.inodes i _ i = _
      rw [upd_self]
    refine ⟨i, h1, by omega, h3, h4, by simp [he], by simp [he],
      by rw [hrec], by rw [hrec], by rw [hrec], by rw [hrec], by rw [hrec],
      by rw [hrec], by rw [hrec], ?_, by simp [he, updInode], by simp [he, updInode]⟩
    intro j hj
    rw [he]
    show upd s.inodes i _ j = _
    rw [upd_ne _ _ hj]

/-- `inode_valid` only reads the record's `inum` and the inode bitmap. -/
theorem inode_valid_congr_inum {s s2 : FS} {i : Nat}
    (hinum : (s2.inodes i).inum = (s.inodes i).inum) (hibm : s2.ibm = s.ibm) :
    inode_valid s2 (some i) = inode_valid s (some i) := by
  simp only [inode_valid, ibmGetI, hinum, hibm]

/-- The deallocation loop of `shrink_inode` terminates when every file block
in `[target, curr)` is mapped to a nonzero block number (and the indirect
block is present where the mapping needs it). -/
theorem shrinkLoop_some {i : Nat} :
    ∀ curr s target, target ≤ curr → curr ≤ 1036 →
      inode_valid s (some i) = true →
      (∀ k, target ≤ k → k < curr → slotVal s i k ≠ 0) →
      (12 < curr → (s.inodes i).indirect ≠ 0) →
      ∃ s2, shrinkLoop i target s curr = some s2 := by
  intro curr
  induction curr with
  | zero =>
    intro s target ht _ _ _ _
    exact ⟨s, rfl⟩
  | succ n ih =>
    intro s target ht hcap hval hmap hind
    by_cases htlt : target < n + 1
    · have haex : ∃ slot, slotAt s i n = some slot := by
        unfold slotAt
        by_cases h12 : n < 12
        · exact ⟨_, by rw [if_pos h12]⟩
        · have hi := hind (by omega)
          exact ⟨_, by rw [if_neg h12, if_neg hi]⟩
      obtain ⟨slot, ha0⟩ := haex
      have hbn : inode_get_bnum s (some i) ((n : Nat) : Int) = some slot := by
        rw [inode_get_bnum_eq_slotAt hval (by omega)]
        exact ha0
      have hb0 : slotRead s slot ≠ 0 := by
        have h := hmap n (by omega) (by omega)
        simpa [slotVal, ha0] using h
      have hafb : slotAt (free_block s (slotRead s slot)) i n = some slot := ha0
      obtain ⟨hoth, hinum, _, _, _, _, hindeq, _, _⟩ :=
        slotWrite_fields (v := 0) hafb
      obtain ⟨s2, hs2⟩ := ih (slotWrite (free_block s (slotRead s slot)) slot 0)
        target (by omega) (by omega)
        (by rw [inode_valid_congr_inum hinum (slotWrite_ibm _ _ _)]; exact hval)
        (by
          intro k hk1 hk2
          rw [slotVal_write_ne hafb (by omega : k ≠ n)]
          exact hmap k hk1 (by omega))
        (by
          intro h12
          rw [hindeq]
          exact hind (by omega))
      refine ⟨s2, ?_⟩
      simp only [shrinkLoop]
      rw [if_pos htlt, hbn]
      simp only []
      rw [if_neg hb0]
      exact hs2
    · refine ⟨s, ?_⟩
      simp only [shrinkLoop]
      rw [if_neg htlt]

/-- C10: on a valid inode all of whose file blocks below
`bytes_to_blocks node.size` are mapped (`inode_get_bnum` yields a slot,
which forces `indirect ≠ 0` past `NDIRECT` and a block count within range)
to nonzero block numbers, and any `new_size` with
`0 ≤ new_size ≤ node.size`, `shrink_inode` terminates: every iteration of
its loop frees a block and decreases the block count, and the call returns
`new_size`. -/
theorem c10_shrink_inode_terminates {s : FS} {i : Nat} {size : Int}
    (hval : inode_valid s (some i) = true)
    (h0 : 0 ≤ size) (hle : size ≤ (s.inodes i).size)
    (hmap : ∀ k : Nat, k < bytes_to_blocks (s.inodes i).size →
      ∃ slot, inode_get_bnum s (some i) (k : Int) = some slot ∧
        slotRead s slot ≠ 0) :
    ∃ s2, shrink_inode s (some i) size = some (s2, size) := by
  have hcap : bytes_to_blocks (s.inodes i).size ≤ 1036 := by
    by_contra hc
    obtain ⟨slot, hs, _⟩ := hmap 1036 (by omega)
    rw [inode_get_bnum] at hs
    rw [if_pos (Or.inr (Or.inr (by norm_num)))] at hs
    exact Option.noConfusion hs
  have hind : 12 < bytes_to_blocks (s.inodes i).size → (s.inodes i).indirect ≠ 0 := by
    intro h12 hc
    obtain ⟨slot, hs, _⟩ := hmap 12 (by omega)
    rw [inode_get_bnum_eq_slotAt hval (by omega)] at hs
    simp [slotAt, hc] at hs
  have hmap2 : ∀ k, bytes_to_blocks size ≤ k →
      k < bytes_to_blocks (s.inodes i).size → slotVal s i k ≠ 0 := by
    intro k _ hk2
    obtain ⟨slot, hs, hnz⟩ := hmap k hk2
    rw [inode_get_bnum_eq_slotAt hval (by omega)] at hs
    simpa [slotVal, hs] using hnz
  obtain ⟨s1, hs1⟩ := shrinkLoop_some (bytes_to_blocks (s.inodes i).size) s
    (bytes_to_blocks size) (bytes_to_blocks_mono hle) hcap hval hmap2 hind
  have hc : ¬(¬(inode_valid s (some i) = true) ∨ (s.inodes i).size < size) := by
    intro h
    rcases h with h1 | h2
    · exact h1 hval
    · exact absurd h2 (not_lt.mpr hle)
  refine ⟨setSize (if bytes_to_blocks size ≤ 12 ∧ (s1.inodes i).indirect ≠ 0
      then setIndirect0 (free_block s1 (s1.inodes i).indirect) i else s1) i size, ?_⟩
  simp only [shrink_inode]
  rw [if_neg hc]
  simp only [hs1]

/-- Witness for C10 at the concrete state `c10state` (one mapped data
block), shrinking inode 2 to size 0. -/
theorem c10_shrink_inode_terminates_witness :
    inode_valid c10state (some 2) = true ∧
    (0 : Int) ≤ 0 ∧ (0 : Int) ≤ (c10state.inodes 2).size ∧
    (∀ k : Nat, k < bytes_to_blocks (c10state.inodes 2).size →
      ∃ slot, inode_get_bnum c10state (some 2) (k : Int) = some slot ∧
        slotRead c10state slot ≠ 0) ∧
    ∃ s2, shrink_inode c10state (some 2) 0 = some (s2, 0) := by
  have hmap : ∀ k : Nat, k < bytes_to_blocks (c10state.inodes 2).size →
      ∃ slot, inode_get_bnum c10state (some 2) (k : Int) = some slot ∧
        slotRead c10state slot ≠ 0 := by
    intro k hk
    have h1 : bytes_to_blocks (c10state.inodes 2).size = 1 := by decide
    rw [h1] at hk
    interval_cases k
    exact ⟨Slot.dir 2 0, by decide, by decide⟩
  exact ⟨by decide, by decide, by decide, hmap,
    c10_shrink_inode_terminates (by decide) (by decide) (by decide) hmap⟩

/-- The byte loop of `inode_write` returns `-1`, a positive count, or its
starting count when given no fuel; the count never exceeds start + fuel. -/
theorem writeLoop_count {i : Nat} {buf : Nat → Nat} {off : Int} :
    ∀ fuel s iCur s' r, writeLoop s i buf off iCur fuel = some (s', r) →
      (r = -1 ∨ 1 ≤ r ∨ (r = (iCur : Int) ∧ fuel = 0)) ∧
      r ≤ (iCur : Int) + (fuel : Int) := by
  intro fuel
  induction fuel with
  | zero =>
    intro s iCur s' r h
    simp only [writeLoop, Option.some.injEq, Prod.mk.injEq] at h
    obtain ⟨hs, hr⟩ := h
    subst hr
    exact ⟨Or.inr (Or.inr ⟨rfl, rfl⟩), by omega⟩
  | succ fuel ih =>
    intro s iCur s' r h
    simp only [writeLoop] at h
    by_cases hsz : (s.inodes i).size ≤ off + iCur
    · rw [if_pos hsz] at h
      simp only [Option.some.injEq, Prod.mk.injEq] at h
      obtain ⟨hs, hr⟩ := h
      by_cases h0 : iCur = 0
      · rw [if_pos h0] at hr
        subst hr
        exact ⟨Or.inl rfl, by omega⟩
      · rw [if_neg h0] at hr
        subst hr
        exact ⟨Or.inr (Or.inl (by omega)), by omega⟩
    · rw [if_neg hsz] at h
      cases hloc : inode_get_byte_loc s (some i) (off + iCur) with
      | none =>
        rw [hloc] at h
        exact absurd h (by simp)
      | some p =>
        rw [hloc] at h
        obtain ⟨b, o⟩ := p
        have h2 : writeLoop (setByte s b o (buf iCur % 256)) i buf off
            (iCur + 1) fuel = some (s', r) := h
        obtain ⟨ha, hb⟩ := ih (setByte s b o (buf iCur % 256)) (iCur + 1) s' r h2
        refine ⟨?_, by push_cast at hb ⊢; omega⟩
        rcases ha with ha | ha | ⟨ha, _⟩
        · exact Or.inl ha
        · exact Or.inr (Or.inl ha)
        · exact Or.inr (Or.inl (by rw [ha]; push_cast; omega))

/-- C7: `inode_write` rejects an invalid inode, a negative offset or a
nonpositive count with `-1`; otherwise it first runs
`grow_inode node (off + n)` and then copies bytes only while they lie below
the (possibly partially grown) size, and whenever it returns a result for
`n > 0` that result is never `0` (zero writable bytes yield `-1`). -/
theorem c7_inode_write_never_returns_zero (s : FS) (i : Nat) (buf : Nat → Nat)
    (off n : Int) :
    ((¬(inode_valid s (some i) = true) ∨ off < 0 ∨ n ≤ 0) →
      inode_write s (some i) buf off n = some (s, -1)) ∧
    (0 < n → ∀ s' r, inode_write s (some i) buf off n = some (s', r) →
      r ≠ 0 ∧ r ≤ n) ∧
    (inode_valid s (some i) = true → 0 ≤ off → 0 < n →
      inode_write s (some i) buf off n =
        match grow_inode s (some i) (off + n) with
        | none => none
        | some p => writeLoop p.1 i buf off 0 n.toNat) := by
  refine ⟨?_, ?_, ?_⟩
  · intro hrej
    simp only [inode_write]
    rw [if_pos hrej]
  · intro hn s' r h
    by_cases hcond : ¬(inode_valid s (some i) = true) ∨ off < 0 ∨ n ≤ 0
    · simp only [inode_write] at h
      rw [if_pos hcond] at h
      simp only [Option.some.injEq, Prod.mk.injEq] at h
      obtain ⟨_, hr⟩ := h
      subst hr
      constructor
      · omega
      · omega
    · simp only [inode_write] at h
      rw [if_neg hcond] at h
      cases hg : grow_inode s (some i) (off + n) with
      | none =>
        rw [hg] at h
        exact absurd h (by simp)
      | some p =>
        rw [hg] at h
        obtain ⟨s1, g⟩ := p
        have h2 : writeLoop s1 i buf off 0 n.toNat = some (s', r) := h
        obtain ⟨ha, hb⟩ := writeLoop_count n.toNat s1 0 s' r h2
        have hfuel : n.toNat ≠ 0 := by omega
        constructor
        · rcases ha with ha | ha | ⟨_, ha⟩
          · omega
          · omega
          · exact absurd ha hfuel
        · have : (n.toNat : Int) = n := Int.toNat_of_nonneg (by omega)
          omega
  · intro hval hoff hn
    simp only [inode_write]
    rw [if_neg (by push_neg; exact ⟨hval, hoff, by omega⟩)]
    cases hg : grow_inode s (some i) (off + n) with
    | none => rfl
    | some p =>
      obtain ⟨s1, g⟩ := p
      rfl

/-- Witness for C7: a negative offset is rejected, and a 4-byte write on the
fresh file never returns 0. -/
theorem c7_inode_write_never_returns_zero_witness :
    inode_write fmtFile (some 2) (fun _ => 65) (-1) 4 = some (fmtFile, -1) ∧
    (∀ s' r, inode_write fmtFile (some 2) (fun _ => 65) 0 4 = some (s', r) →
      r ≠ 0 ∧ r ≤ 4) ∧
    inode_write fmtFile (some 2) (fun _ => 65) 0 4 =
      match grow_inode fmtFile (some 2) (0 + 4) with
      | none => none
      | some p => writeLoop p.1 2 (fun _ => 65) 0 0 (4 : Int).toNat :=
  ⟨(c7_inode_write_never_returns_zero fmtFile 2 (fun _ => 65) (-1) 4).1
      (Or.inr (Or.inl (by norm_num))),
   (c7_inode_write_never_returns_zero fmtFile 2 (fun _ => 65) 0 4).2.1
      (by norm_num),
   (c7_inode_write_never_returns_zero fmtFile 2 (fun _ => 65) 0 4).2.2
      (by decide) (by norm_num) (by norm_num)⟩

/-- `inode_get_byte` finds a location for every byte below the size when the
mapping is within range (the indirect block present past `NDIRECT`). -/
theorem inode_get_byte_loc_some {s : FS} {i : Nat} {fb : Int}
    (hval : inode_valid s (some i) = true)
    (h0 : 0 ≤ fb) (h1 : fb < (s.inodes i).size)
    (hind : 12 < bytes_to_blocks (s.inodes i).size → (s.inodes i).indirect ≠ 0)
    (hcap : bytes_to_blocks (s.inodes i).size ≤ 1036) :
    ∃ loc, inode_get_byte_loc s (some i) fb = some loc := by
  have hk : fb.toNat / 4096 < bytes_to_blocks (s.inodes i).size := by
    have hsz : (s.inodes i).size = ((s.inodes i).size.toNat : Int) :=
      (Int.toNat_of_nonneg (by omega)).symm
    rw [hsz, lt_bytes_to_blocks]
    omega
  have ha : ∃ slot, slotAt s i (fb.toNat / 4096) = some slot := by
    unfold slotAt
    by_cases h12 : fb.toNat / 4096 < 12
    · exact ⟨_, by rw [if_pos h12]⟩
    · have hi := hind (by omega)
      exact ⟨_, by rw [if_neg h12, if_neg hi]⟩
  obtain ⟨slot, hsl⟩ := ha
  have hbn : inode_get_bnum s (some i) ((fb.toNat / 4096 : Nat) : Int) = some slot := by
    rw [inode_get_bnum_eq_slotAt hval (by omega)]
    exact hsl
  refine ⟨((slotRead s slot).toNat, fb.toNat % 4096), ?_⟩
  simp only [inode_get_byte_loc]
  rw [if_neg (by push_neg; exact ⟨hval, h0, h1⟩)]
  simp only [hbn]

/-- When every byte below the inode's size is mapped and the fuel reaches
the size, the byte loop of `inode_write` runs to the size and returns
`size - off`, leaving the inode table unchanged. -/
theorem writeLoop_full {i : Nat} {buf : Nat → Nat} {off : Int} (hoff : 0 ≤ off) :
    ∀ (fuel : Nat) (s : FS) (iCur : Nat),
      inode_valid s (some i) = true →
      (12 < bytes_to_blocks (s.inodes i).size → (s.inodes i).indirect ≠ 0) →
      bytes_to_blocks (s.inodes i).size ≤ 1036 →
      (iCur : Int) ≤ (s.inodes i).size - off →
      (s.inodes i).size - off ≤ (iCur : Int) + (fuel : Int) →
      0 < (s.inodes i).size - off →
      ∃ s2, writeLoop s i buf off iCur fuel = some (s2, (s.inodes i).size - off) ∧
        s2.inodes = s.inodes := by
  intro fuel
  induction fuel with
  | zero =>
    intro s iCur hval hind hcap hle hge hpos
    have h : ((iCur : Int)) = (s.inodes i).size - off := by push_cast at hge; omega
    refine ⟨s, ?_, rfl⟩
    simp only [writeLoop, h]
  | succ fuel ih =>
    intro s iCur hval hind hcap hle hge hpos
    by_cases hstop : (s.inodes i).size ≤ off + iCur
    · have hieq : ((iCur : Int)) = (s.inodes i).size - off := by omega
      have hi0 : iCur ≠ 0 := by
        intro h
        rw [h] at hieq
        simp at hieq
        omega
      refine ⟨s, ?_, rfl⟩
      simp only [writeLoop]
      rw [if_pos hstop, if_neg hi0, hieq]
    · push_neg at hstop
      obtain ⟨loc, hloc⟩ := inode_get_byte_loc_some hval (by omega) hstop hind hcap
      obtain ⟨b, o⟩ := loc
      have hval2 : inode_valid (setByte s b o (buf iCur % 256)) (some i) = true := hval
      have hind2 : 12 < bytes_to_blocks ((setByte s b o (buf iCur % 256)).inodes i).size →
          ((setByte s b o (buf iCur % 256)).inodes i).indirect ≠ 0 := hind
      have hle2 : ((iCur + 1 : Nat) : Int) ≤
          ((setByte s b o (buf iCur % 256)).inodes i).size - off := by
        show ((iCur + 1 : Nat) : Int) ≤ (s.inodes i).size - off
        push_cast
        omega
      have hge2 : ((setByte s b o (buf iCur % 256)).inodes i).size - off ≤
          ((iCur + 1 : Nat) : Int) + (fuel : Int) := by
        show (s.inodes i).size - off ≤ ((iCur + 1 : Nat) : Int) + (fuel : Int)
        push_cast at hge ⊢
        omega
      have hpos2 : 0 < ((setByte s b o (buf iCur % 256)).inodes i).size - off := hpos
      obtain ⟨s2, hrun, hinn⟩ := ih (setByte s b o (buf iCur % 256)) (iCur + 1)
        hval2 hind2 hcap hle2 hge2 hpos2
      refine ⟨s2, ?_, hinn⟩
      simp only [writeLoop]
      rw [if_neg (not_le.mpr hstop), hloc]
      exact hrun

/-- On the 256-block device of `fmtFile` (251 free blocks), any write at
offset 0 requesting at least 251 blocks worth of bytes exhausts the block
bitmap after 250 file blocks (249 data blocks fill the bitmap together with
the indirect block): `grow_inode` truncates the size to `250 * BLOCK_SIZE`
and `inode_write` copies and returns exactly `1024000` bytes. -/
theorem inode_write_fmtFile_big {N : Int} (buf : Nat → Nat)
    (hN : 1028096 ≤ N) :
    ∃ s3, inode_write fmtFile (some 2) buf 0 N = some (s3, 1024000) := by
  have hv : inode_valid fmtFile (some 2) = true := by decide
  have hsz0 : (fmtFile.inodes 2).size = 0 := by decide
  have hsz : (fmtFile.inodes 2).size ≤ N := by omega
  have hinv0 : GrowInv fmtFile 2 (bytes_to_blocks (fmtFile.inodes 2).size) := by
    have h : bytes_to_blocks (fmtFile.inodes 2).size = 0 := by decide
    rw [h]
    exact growInv_fmtFile
  obtain ⟨s2, m, ok, hm1, hm2, hinv2, hdelta, hok, hfail, heq⟩ :=
    grow_inode_spec hv hsz hinv0
  have hfcfmt : freeBlockCount fmtFile = 251 := by decide
  have hindfmt : (fmtFile.inodes 2).indirect = 0 := by decide
  have hbtb0 : bytes_to_blocks (fmtFile.inodes 2).size = 0 := by decide
  obtain ⟨hvi2, _, _, _, _, hc12, _, _, _, _, _, _, _, _⟩ := hinv2
  obtain ⟨_, _, _, _, _, _, _, _, _, _, _, _, _, _, _, d16⟩ := hdelta
  have hbtbN : 251 ≤ bytes_to_blocks N := by
    have h1 : bytes_to_blocks ((4096 * 251 : Nat) : Int) = 251 := bytes_to_blocks_mul 251
    have h2 : bytes_to_blocks ((4096 * 251 : Nat) : Int) ≤ bytes_to_blocks N :=
      bytes_to_blocks_mono (by push_cast; omega)
    omega
  have hokf : ok = false := by
    cases ok with
    | false => rfl
    | true =>
      exfalso
      have hmN := hok rfl
      have hm12 : 12 < m := by omega
      have hindne := hc12 hm12
      have hc1 : (if (fmtFile.inodes 2).indirect = 0 ∧ (s2.inodes 2).indirect ≠ 0
          then 1 else 0) = 1 := if_pos ⟨hindfmt, hindne⟩
      omega
  subst hokf
  have hfc0 : freeBlockCount s2 = 0 := hfail rfl
  have hm12 : 12 < m := by
    have hind1 : (if (fmtFile.inodes 2).indirect = 0 ∧ (s2.inodes 2).indirect ≠ 0
        then 1 else 0) ≤ 1 := by split <;> omega
    omega
  have hindne : (s2.inodes 2).indirect ≠ 0 := hc12 hm12
  have hind1 : (if (fmtFile.inodes 2).indirect = 0 ∧ (s2.inodes 2).indirect ≠ 0
      then 1 else 0) = 1 := if_pos ⟨hindfmt, hindne⟩
  have hm250 : m = 250 := by omega
  subst hm250
  have hgrow : grow_inode fmtFile (some 2) N = some (setSize s2 2 1024000, -1) := by
    rw [heq, if_neg (by simp)]
    norm_num
  have hs1rec : (setSize s2 2 1024000).inodes 2
      = { s2.inodes 2 with size := 1024000 } := upd_self s2.inodes 2 _
  have hval1 : inode_valid (setSize s2 2 1024000) (some 2) = true := by
    rw [inode_valid_congr_inum (by rw [hs1rec]) rfl]
    exact inode_valid_of_validIdx hvi2
  have hsize1 : ((setSize s2 2 1024000).inodes 2).size = 1024000 := by
    rw [hs1rec]
  have hbtb1 : bytes_to_blocks ((setSize s2 2 1024000).inodes 2).size = 250 := by
    rw [hsize1]
    decide
  have hind2 : 12 < bytes_to_blocks ((setSize s2 2 1024000).inodes 2).size →
      ((setSize s2 2 1024000).inodes 2).indirect ≠ 0 := by
    intro _
    rw [hs1rec]
    exact hindne
  obtain ⟨s3, hrun, _⟩ := writeLoop_full (le_refl (0 : Int)) N.toNat
    (setSize s2 2 1024000) 0 hval1 hind2 (by rw [hbtb1]; omega)
    (by rw [hsize1]; omega)
    (by rw [hsize1]; push_cast; omega)
    (by rw [hsize1]; omega)
  rw [hsize1] at hrun
  refine ⟨s3, ?_⟩
  simp only [inode_write]
  rw [if_neg (by push_neg; exact ⟨hv, le_refl 0, by omega⟩), zero_add, hgrow]
  show writeLoop (setSize s2 2 1024000) 2 buf 0 0 N.toNat = some (s3, 1024000)
  rw [hrun]
  norm_num

/-- C4 counterexample: starting from the formatted image `fmtFile` with one
regular file of size 0, writing exactly `(NDIRECT + NINDIRECT) * BS =
4243456` bytes at offset 0 does not return the full byte count: the
256-block device runs out of blocks after 250 file blocks and the write
returns `1024000`. -/
theorem c4_full_size_write_truncated :
    ∃ s3, inode_write fmtFile (some 2) (fun _ => 65) 0 4243456
        = some (s3, 1024000) ∧ (1024000 : Int) ≠ 4243456 := by
  obtain ⟨s3, h⟩ := @inode_write_fmtFile_big 4243456 (fun _ => 65) (by norm_num)
  exact ⟨s3, h, by norm_num⟩

/-- C4 amended: on the 256-block device the reachable maximum file size is
set by the free-block pool, not by `(NDIRECT + NINDIRECT) * BS`: writes of
`4243456` and of `4243457` bytes at offset 0 to the fresh file both
truncate identically and return `1024000 = 250 * BLOCK_SIZE` bytes. -/
theorem c4_max_file_size_is_device_bound (buf : Nat → Nat) :
    (∃ s3, inode_write fmtFile (some 2) buf 0 4243456 = some (s3, 1024000)) ∧
    (∃ s3, inode_write fmtFile (some 2) buf 0 4243457 = some (s3, 1024000)) :=
  ⟨@inode_write_fmtFile_big 4243456 buf (by norm_num),
   @inode_write_fmtFile_big 4243457 buf (by norm_num)⟩

/-- Once the live-slot counter of `directory_read`'s loop has reached the
requested index 0, the loop stops immediately and reports it. -/
theorem drLoop_zero_count {s : FS} {d : Nat} :
    ∀ fuel temp ii, drLoop s (some d) 0 temp 0 ii fuel = some (0, temp) := by
  intro fuel temp ii
  cases fuel with
  | zero => rfl
  | succ k =>
    simp only [drLoop]
    rw [if_pos (by norm_num : (0 : Int) ≤ 0)]

/-- `directory_read`'s loop at index 0 over a range of slots that are all
tombstones or short reads keeps the counter at `-1`. -/
theorem drLoop_all_tombstones {s : FS} {d : Nat} :
    ∀ fuel ii temp,
      (∀ k, ii ≤ k → k < ii + fuel → ∃ od, dirent_read s (some d) k = some od) →
      (∀ k dd, ii ≤ k → k < ii + fuel → dirent_read s (some d) k = some (some dd) →
        dd.inum = 0) →
      ∃ t2, drLoop s (some d) 0 temp (-1) ii fuel = some (-1, t2) := by
  intro fuel
  induction fuel with
  | zero =>
    intro ii temp _ _
    exact ⟨temp, rfl⟩
  | succ n ih =>
    intro ii temp hreads htomb
    obtain ⟨od, hod⟩ := hreads ii (le_refl _) (by omega)
    simp only [drLoop]
    rw [if_neg (by norm_num : ¬((0 : Int) ≤ -1)), hod]
    cases od with
    | none =>
      exact ih (ii + 1) temp (fun k h1 h2 => hreads k (by omega) (by omega))
        (fun k dd h1 h2 h3 => htomb k dd (by omega) (by omega) h3)
    | some dd =>
      have h0 : dd.inum = 0 := htomb ii dd (le_refl _) (by omega) hod
      obtain ⟨t2, ht⟩ := ih (ii + 1) dd (fun k h1 h2 => hreads k (by omega) (by omega))
        (fun k dd2 h1 h2 h3 => htomb k dd2 (by omega) (by omega) h3)
      refine ⟨t2, ?_⟩
      show (if (dd.inum != 0) = true then drLoop s (some d) 0 dd (-1 + 1) (ii + 1) n
            else drLoop s (some d) 0 dd (-1) (ii + 1) n) = some (-1, t2)
      rw [if_neg (by simp [h0])]
      exact ht

/-- `directory_read`'s loop at index 0 reaches counter 0 as soon as the
range holds a live slot (earlier reads not crashing). -/
theorem drLoop_first_live {s : FS} {d : Nat} :
    ∀ fuel ii temp,
      (∀ k, ii ≤ k → k < ii + fuel → ∃ od, dirent_read s (some d) k = some od) →
      (∃ k, ii ≤ k ∧ k < ii + fuel ∧
        ∃ dd, dirent_read s (some d) k = some (some dd) ∧ dd.inum ≠ 0) →
      ∃ t2, drLoop s (some d) 0 temp (-1) ii fuel = some (0, t2) := by
  intro fuel
  induction fuel with
  | zero =>
    intro ii temp _ hlive
    obtain ⟨k, h1, h2, _⟩ := hlive
    omega
  | succ n ih =>
    intro ii temp hreads hlive
    obtain ⟨od, hod⟩ := hreads ii (le_refl _) (by omega)
    simp only [drLoop]
    rw [if_neg (by norm_num : ¬((0 : Int) ≤ -1)), hod]
    cases od with
    | none =>
      obtain ⟨k, h1, h2, dd, hdd, hne⟩ := hlive
      have hk : k ≠ ii := by
        intro h
        subst h
        rw [hod] at hdd
        exact Option.noConfusion (Option.some.inj hdd)
      exact ih (ii + 1) temp (fun k2 g1 g2 => hreads k2 (by omega) (by omega))
        ⟨k, by omega, by omega, dd, hdd, hne⟩
    | some dd =>
      by_cases h0 : dd.inum = 0
      · obtain ⟨k, h1, h2, dd2, hdd2, hne⟩ := hlive
        have hk : k ≠ ii := by
          intro h
          subst h
          rw [hod] at hdd2
          have := Option.some.inj (Option.some.inj hdd2)
          subst this
          exact hne h0
        obtain ⟨t2, ht⟩ := ih (ii + 1) dd
          (fun k2 g1 g2 => hreads k2 (by omega) (by omega))
          ⟨k, by omega, by omega, dd2, hdd2, hne⟩
        refine ⟨t2, ?_⟩
        show (if (dd.inum != 0) = true then drLoop s (some d) 0 dd (-1 + 1) (ii + 1) n
              else drLoop s (some d) 0 dd (-1) (ii + 1) n) = some (0, t2)
        rw [if_neg (by simp [h0])]
        exact ht
      · refine ⟨dd, ?_⟩
        show (if (dd.inum != 0) = true then drLoop s (some d) 0 dd (-1 + 1) (ii + 1) n
              else drLoop s (some d) 0 dd (-1) (ii + 1) n) = some (0, dd)
        rw [if_pos (by simp [h0])]
        exact drLoop_zero_count n dd (ii + 1)

/-- C8: when `path` resolves to inode `d` and no slot read of `d` crashes,
`storage_rmdir` returns `-1` leaving the state unchanged as soon as `d` has
a live (non-tombstone) slot, and otherwise — every slot a tombstone or a
short read — defers to `storage_unlink` on the same path; concretely, on
the volume `c8state` whose directory `/d` holds only a tombstone, rmdir
succeeds with 0, clears the directory's inode-bitmap bit and tombstones the
parent's entry. -/
theorem c8_rmdir_live_rejects_tombstones_unlink (s : FS) (path : List Nat)
    (d : Nat) (hres : path_get_inode s path = some (some d))
    (hreads : ∀ k, k < slotCount s d → ∃ od, dirent_read s (some d) k = some od) :
    ((∃ k, k < slotCount s d ∧
        ∃ dd, dirent_read s (some d) k = some (some dd) ∧ dd.inum ≠ 0) →
      storage_rmdir s path = some (s, -1)) ∧
    ((∀ k dd, k < slotCount s d → dirent_read s (some d) k = some (some dd) →
        dd.inum = 0) →
      storage_rmdir s path = storage_unlink s path) ∧
    ((storage_rmdir c8state [47, 100]).map Prod.snd = some 0 ∧
      ((storage_rmdir c8state [47, 100]).getD (c8state, 0)).1.ibm 2 = false ∧
      (dirent_read ((storage_rmdir c8state [47, 100]).getD (c8state, 0)).1
        (some 1) 0).map (Option.map Dirent.inum) = some (some 0)) := by
  refine ⟨?_, ?_, by decide, by decide, by decide⟩
  · intro hlive
    obtain ⟨t2, hdr⟩ := drLoop_first_live (slotCount s d) 0 zeroDirent
      (fun k _ h2 => hreads k (by omega))
      (by obtain ⟨k, h1, h2⟩ := hlive; exact ⟨k, by omega, by omega, h2⟩)
    simp only [storage_rmdir]
    rw [hres]
    simp only [directory_read, hdr]
    rw [if_pos (by norm_num : (0 : Int) ≤ if (0 : Int) ≤ 0 then 0 else -1)]
  · intro htomb
    obtain ⟨t2, hdr⟩ := drLoop_all_tombstones (slotCount s d) 0 zeroDirent
      (fun k _ h2 => hreads k (by omega))
      (fun k dd _ h2 h3 => htomb k dd (by omega) h3)
    simp only [storage_rmdir]
    rw [hres]
    simp only [directory_read, hdr]
    rw [if_neg (by norm_num : ¬((0 : Int) ≤ if (0 : Int) ≤ -1 then 0 else -1))]

/-- Witness for C8 at two concrete inputs: the root of `c1state` holds the
live entry `a`, so rmdir on `/` is rejected; the directory `/d` of
`c8state` holds only a tombstone, so rmdir on `/d` becomes the unlink. -/
theorem c8_rmdir_live_rejects_tombstones_unlink_witness :
    storage_rmdir c1state [47] = some (c1state, -1) ∧
    storage_rmdir c8state [47, 100] = storage_unlink c8state [47, 100] := by
  constructor
  · refine (c8_rmdir_live_rejects_tombstones_unlink c1state [47] 1 (by decide)
      ?_).1 ?_
    · intro k hk
      have h1 : slotCount c1state 1 = 1 := by decide
      rw [h1] at hk
      interval_cases k
      exact ⟨some (parseDirent (direntBytes ⟨padName [97], 2, List.replicate 12 0⟩)),
        by decide⟩
    · refine ⟨0, by decide, parseDirent (direntBytes ⟨padName [97], 2,
        List.replicate 12 0⟩), by decide, by decide⟩
  · refine (c8_rmdir_live_rejects_tombstones_unlink c8state [47, 100] 2 (by decide)
      ?_).2.1 ?_
    · intro k hk
      have h1 : slotCount c8state 2 = 1 := by decide
      rw [h1] at hk
      interval_cases k
      exact ⟨some (parseDirent (List.replicate 64 0)), by decide⟩
    · intro k dd hk hread
      have h1 : slotCount c8state 2 = 1 := by decide
      rw [h1] at hk
      interval_cases k
      have h2 : dirent_read c8state (some 2) 0
          = some (some (parseDirent (List.replicate 64 0))) := by decide
      rw [h2] at hread
      have h3 := Option.some.inj (Option.some.inj hread)
      rw [← h3]
      decide

/-- `slotVal` only reads the `direct` array, the `indirect` pointer and the
indirect block's contents. -/
theorem slotVal_congr_fields {s s2 : FS} {i : Nat} (k : Nat)
    (hdir : (s2.inodes i).direct = (s.inodes i).direct)
    (hind : (s2.inodes i).indirect = (s.inodes i).indirect)
    (hblk : (s.inodes i).indirect ≠ 0 →
      s2.blocks (s.inodes i).indirect.toNat = s.blocks (s.inodes i).indirect.toNat) :
    slotVal s2 i k = slotVal s i k := by
  by_cases h12 : k < 12
  · rw [slotVal_dir h12, slotVal_dir h12, hdir]
  · by_cases hi : (s.inodes i).indirect = 0
    · rw [slotVal_ind0 h12 (by rw [hind]; exact hi), slotVal_ind0 h12 hi]
    · rw [slotVal_ind h12 (by rw [hind]; exact hi), slotVal_ind h12 hi, hind,
        hblk hi]

/-- The grow invariant ignores the `size` field, so `setSize` preserves it. -/
theorem growInv_setSize {s : FS} {i curr : Nat} (v : Int) (h : GrowInv s i curr) :
    GrowInv (setSize s i v) i curr := by
  obtain ⟨hval, hdl, hmap, hclean, hindp, hc12, hnd, hndi, hr0, hr1, hr2, hr3,
    hr4, hfit⟩ := h
  have hrec : (setSize s i v).inodes i = { s.inodes i with size := v } :=
    upd_self s.inodes i _
  have hsv : ∀ k, slotVal (setSize s i v) i k = slotVal s i k := fun k =>
    slotVal_congr_fields k (by rw [hrec]) (by rw [hrec]) (fun _ => rfl)
  refine ⟨validIdx_congr hval (by rw [hrec]) rfl, by rw [hrec]; exact hdl,
    fun k hk => by rw [hsv k]; exact hmap k hk,
    fun k hk1 hk2 => by rw [hrec]; exact hclean k hk1 hk2,
    ?_,
    fun h12 => by rw [hrec]; exact hc12 h12,
    fun k k2 a c d => by rw [hsv k, hsv k2]; exact hnd k k2 a c d,
    fun k hk => by rw [hsv k, hrec]; exact hndi k hk,
    hr0, hr1, hr2, hr3, hr4, ?_⟩
  · intro hne
    rw [hrec] at hne ⊢
    obtain ⟨a, c, d, dcl⟩ := hindp hne
    exact ⟨a, c, d, fun k h1 h2 h3 => by rw [hsv k]; exact dcl k h1 h2 h3⟩
  · rw [freeBlockCount_congr (rfl : (setSize s i v).bbm = s.bbm)]
    exact hfit

/-- The precise location `inode_get_byte` computes for a byte below the
size: the mapped block of file block `fb / BS` at offset `fb % BS`. -/
theorem inode_get_byte_loc_eq {s : FS} {i : Nat} {fb : Int}
    (hval : inode_valid s (some i) = true)
    (h0 : 0 ≤ fb) (h1 : fb < (s.inodes i).size)
    (hind : 12 < bytes_to_blocks (s.inodes i).size → (s.inodes i).indirect ≠ 0)
    (hcap : bytes_to_blocks (s.inodes i).size ≤ 1036) :
    inode_get_byte_loc s (some i) fb
      = some ((slotVal s i (fb.toNat / 4096)).toNat, fb.toNat % 4096) := by
  have hk : fb.toNat / 4096 < bytes_to_blocks (s.inodes i).size := by
    have hsz : (s.inodes i).size = ((s.inodes i).size.toNat : Int) :=
      (Int.toNat_of_nonneg (by omega)).symm
    rw [hsz, lt_bytes_to_blocks]
    omega
  have ha : ∃ slot, slotAt s i (fb.toNat / 4096) = some slot := by
    unfold slotAt
    by_cases h12 : fb.toNat / 4096 < 12
    · exact ⟨_, by rw [if_pos h12]⟩
    · have hi := hind (by omega)
      exact ⟨_, by rw [if_neg h12, if_neg hi]⟩
  obtain ⟨slot, hsl⟩ := ha
  have hbn : inode_get_bnum s (some i) ((fb.toNat / 4096 : Nat) : Int) = some slot := by
    rw [inode_get_bnum_eq_slotAt hval (by omega)]
    exact hsl
  simp only [inode_get_byte_loc]
  rw [if_neg (by push_neg; exact ⟨hval, h0, h1⟩)]
  simp only [hbn]
  have hv : slotRead s slot = slotVal s i (fb.toNat / 4096) := by
    simp [slotVal, hsl]
  rw [hv]

/-- The byte value `inode_get_byte` returns for a byte below the size is
`fileByte`. -/
theorem inode_get_byte_eq {s : FS} {i : Nat} {fb : Int}
    (hval : inode_valid s (some i) = true)
    (h0 : 0 ≤ fb) (h1 : fb < (s.inodes i).size)
    (hind : 12 < bytes_to_blocks (s.inodes i).size → (s.inodes i).indirect ≠ 0)
    (hcap : bytes_to_blocks (s.inodes i).size ≤ 1036) :
    inode_get_byte s (some i) fb = some (fileByte s i fb.toNat) := by
  unfold inode_get_byte fileByte
  rw [inode_get_byte_loc_eq hval h0 h1 hind hcap]
  rfl

/-- The byte loop of `inode_write` never counts past the first byte index
at or beyond the size. -/
theorem writeLoop_le {i : Nat} {b : Nat → Nat} {off : Int} :
    ∀ fuel s iCur s' r, writeLoop s i b off iCur fuel = some (s', r) →
      r ≤ (iCur : Int) ∨ r ≤ (s.inodes i).size - off := by
  intro fuel
  induction fuel with
  | zero =>
    intro s iCur s' r h
    simp only [writeLoop, Option.some.injEq, Prod.mk.injEq] at h
    exact Or.inl (by omega)
  | succ fuel ih =>
    intro s iCur s' r h
    simp only [writeLoop] at h
    by_cases hsz : (s.inodes i).size ≤ off + iCur
    · rw [if_pos hsz] at h
      simp only [Option.some.injEq, Prod.mk.injEq] at h
      obtain ⟨_, hr⟩ := h
      by_cases h0 : iCur = 0
      · rw [if_pos h0] at hr
        exact Or.inl (by omega)
      · rw [if_neg h0] at hr
        exact Or.inl (by omega)
    · rw [if_neg hsz] at h
      cases hloc : inode_get_byte_loc s (some i) (off + iCur) with
      | none =>
        rw [hloc] at h
        exact absurd h (by simp)
      | some p =>
        rw [hloc] at h
        obtain ⟨bb, o⟩ := p
        have h2 : writeLoop (setByte s bb o (b iCur % 256)) i b off
            (iCur + 1) fuel = some (s', r) := h
        rcases ih (setByte s bb o (b iCur % 256)) (iCur + 1) s' r h2 with hr | hr
        · push_neg at hsz
          right
          push_cast at hr
          omega
        · exact Or.inr hr

/-- The byte loop of `inode_read` over a range lying below the size returns
the full count and the mapped bytes in order. -/
theorem readLoop_full {i : Nat} {off : Int} (hoff : 0 ≤ off) :
    ∀ (fuel : Nat) (s : FS) (iCur : Nat),
      inode_valid s (some i) = true →
      (12 < bytes_to_blocks (s.inodes i).size → (s.inodes i).indirect ≠ 0) →
      bytes_to_blocks (s.inodes i).size ≤ 1036 →
      off + (iCur : Int) + (fuel : Int) ≤ (s.inodes i).size →
      readLoop s i off iCur fuel
        = some (iCur + fuel, (List.range fuel).map
            (fun j : Nat => fileByte s i (off + (iCur : Int) + (j : Int)).toNat)) := by
  intro fuel
  induction fuel with
  | zero =>
    intro s iCur _ _ _ _
    simp [readLoop]
  | succ n ih =>
    intro s iCur hval hind hcap hsz
    have hlt : off + (iCur : Int) < (s.inodes i).size := by push_cast at hsz; omega
    simp only [readLoop]
    rw [if_neg (not_le.mpr hlt)]
    rw [inode_get_byte_eq hval (by omega) hlt hind hcap]
    rw [ih s (iCur + 1) hval hind hcap (by push_cast at hsz ⊢; omega)]
    simp only [Option.some.injEq, Prod.mk.injEq]
    refine ⟨by omega, ?_⟩
    rw [List.range_succ_eq_map, List.map_cons, List.map_map]
    refine List.cons_eq_cons.mpr ⟨?_, ?_⟩
    · have h : off + (iCur : Int) + ((0 : Nat) : Int) = off + (iCur : Int) := by
        push_cast; ring
      rw [h]
    · apply List.map_congr_left
      intro j _
      show fileByte s i (off + ((iCur + 1 : Nat) : Int) + (j : Int)).toNat
          = fileByte s i (off + (iCur : Int) + ((j + 1 : Nat) : Int)).toNat
      congr 1
      push_cast
      ring

/-- `inode_read` of a range lying below the size returns the full count and
the file's bytes. -/
theorem inode_read_eq {s : FS} {i : Nat} {off n : Int}
    (hval : inode_valid s (some i) = true)
    (hoff : 0 ≤ off) (hn : 0 ≤ n)
    (hind : 12 < bytes_to_blocks (s.inodes i).size → (s.inodes i).indirect ≠ 0)
    (hcap : bytes_to_blocks (s.inodes i).size ≤ 1036)
    (hsz : off + n ≤ (s.inodes i).size) :
    inode_read s (some i) off n
      = some (n, (List.range n.toNat).map
          (fun j : Nat => fileByte s i (off + (j : Int)).toNat)) := by
  simp only [inode_read]
  rw [if_neg (by push_neg; exact ⟨hval, hoff, hn⟩)]
  rw [readLoop_full hoff n.toNat s 0 hval hind hcap
    (by push_cast; rw [Int.toNat_of_nonneg hn]; omega)]
  rw [Option.map_some']
  refine congrArg some (Prod.ext ?_ ?_)
  · show ((0 + n.toNat : Nat) : Int) = n
    push_cast
    rw [Int.toNat_of_nonneg hn]
    ring
  · show (List.range n.toNat).map
        (fun j : Nat => fileByte s i (off + ((0 : Nat) : Int) + (j : Int)).toNat) = _
    apply List.map_congr_left
    intro j _
    congr 1
    push_cast
    ring

/-- What the byte loop of `inode_write` does to the state when the mapped
blocks are distinct in-range data blocks: the inode table and bitmaps are
untouched, the mapping is untouched, only the written byte locations
change, and every byte the loop reached holds its buffer value. -/
theorem writeLoop_content {i : Nat} {b : Nat → Nat} {off : Int} (hoff : 0 ≤ off) :
    ∀ (fuel : Nat) (s : FS) (iCur : Nat) (s' : FS) (r : Int),
      inode_valid s (some i) = true →
      (∀ k, k < bytes_to_blocks (s.inodes i).size →
        5 ≤ slotVal s i k ∧ slotVal s i k < 256) →
      (∀ k k2, k < bytes_to_blocks (s.inodes i).size →
        k2 < bytes_to_blocks (s.inodes i).size → k ≠ k2 →
        slotVal s i k ≠ slotVal s i k2) →
      (∀ k, k < bytes_to_blocks (s.inodes i).size →
        slotVal s i k ≠ (s.inodes i).indirect) →
      (12 < bytes_to_blocks (s.inodes i).size → (s.inodes i).indirect ≠ 0) →
      bytes_to_blocks (s.inodes i).size ≤ 1036 →
      writeLoop s i b off iCur fuel = some (s', r) →
      s'.inodes = s.inodes ∧ s'.ibm = s.ibm ∧ s'.bbm = s.bbm ∧
      (∀ k, slotVal s' i k = slotVal s i k) ∧
      (∀ blk o, (∀ fb : Nat, off + (iCur : Int) ≤ (fb : Int) →
          (fb : Int) < (s.inodes i).size →
          ((slotVal s i (fb / 4096)).toNat, fb % 4096) ≠ (blk, o)) →
        s'.blocks blk o = s.blocks blk o) ∧
      (∀ j : Nat, iCur ≤ j → j < iCur + fuel →
        off + (j : Int) < (s.inodes i).size →
        fileByte s' i (off + (j : Int)).toNat = b j % 256) := by
  intro fuel
  induction fuel with
  | zero =>
    intro s iCur s' r _ _ _ _ _ _ h
    simp only [writeLoop, Option.some.injEq, Prod.mk.injEq] at h
    obtain ⟨hs, _⟩ := h
    subst hs
    exact ⟨rfl, rfl, rfl, fun _ => rfl, fun _ _ _ => rfl,
      fun j h1 h2 _ => absurd h2 (by omega)⟩
  | succ fuel ih =>
    intro s iCur s' r hval hmapB hnd hndi hind hcap h
    simp only [writeLoop] at h
    by_cases hstop : (s.inodes i).size ≤ off + iCur
    · rw [if_pos hstop] at h
      simp only [Option.some.injEq, Prod.mk.injEq] at h
      obtain ⟨hs, _⟩ := h
      subst hs
      refine ⟨rfl, rfl, rfl, fun _ => rfl, fun _ _ _ => rfl, ?_⟩
      intro j h1 _ h3
      exfalso
      have : (iCur : Int) ≤ (j : Int) := by exact_mod_cast h1
      omega
    · rw [if_neg hstop] at h
      push_neg at hstop
      have hszpos : 0 < (s.inodes i).size := by omega
      have hdivlt : ∀ fb : Nat, (fb : Int) < (s.inodes i).size →
          fb / 4096 < bytes_to_blocks (s.inodes i).size := by
        intro fb hfb
        have hsz2 : (s.inodes i).size = ((s.inodes i).size.toNat : Int) :=
          (Int.toNat_of_nonneg (by omega)).symm
        rw [hsz2, lt_bytes_to_blocks]
        omega
      have hfbN : (((off + (iCur : Int)).toNat : Nat) : Int) = off + (iCur : Int) :=
        Int.toNat_of_nonneg (by omega)
      have hk0 : (off + (iCur : Int)).toNat / 4096
          < bytes_to_blocks (s.inodes i).size := hdivlt _ (by omega)
      have hB := hmapB _ hk0
      have hloc : inode_get_byte_loc s (some i) (off + (iCur : Int))
          = some ((slotVal s i ((off + (iCur : Int)).toNat / 4096)).toNat,
              (off + (iCur : Int)).toNat % 4096) :=
        inode_get_byte_loc_eq hval (by omega) hstop hind hcap
      rw [hloc] at h
      have h2 : writeLoop (setByte s
          (slotVal s i ((off + (iCur : Int)).toNat / 4096)).toNat
          ((off + (iCur : Int)).toNat % 4096) (b iCur % 256)) i b off
          (iCur + 1) fuel = some (s', r) := h
      set blk0 := (slotVal s i ((off + (iCur : Int)).toNat / 4096)).toNat with hblk0
      set o0 := (off + (iCur : Int)).toNat % 4096 with ho0
      set sB := setByte s blk0 o0 (b iCur % 256) with hsB
      have hne_ind : (s.inodes i).indirect ≠ 0 → blk0 ≠ (s.inodes i).indirect.toNat := by
        intro hi hc
        apply hndi _ hk0
        omega
      have hsvB : ∀ k, slotVal sB i k = slotVal s i k := by
        intro k
        refine slotVal_congr_fields k rfl rfl ?_
        intro hi
        show upd s.blocks blk0 _ (s.inodes i).indirect.toNat
            = s.blocks (s.inodes i).indirect.toNat
        exact upd_ne _ _ (fun hc => hne_ind hi hc.symm)
      obtain ⟨i1, i2, i3, i4, i5, i6⟩ := ih sB (iCur + 1) s' r hval
        (fun k hk => by rw [hsvB k]; exact hmapB k hk)
        (fun k k2 a c d => by rw [hsvB k, hsvB k2]; exact hnd k k2 a c d)
        (fun k hk => by rw [hsvB k]; exact hndi k hk)
        hind hcap h2
      have hloc_ne : ∀ fb : Nat, off + ((iCur + 1 : Nat) : Int) ≤ (fb : Int) →
          (fb : Int) < (s.inodes i).size →
          ((slotVal s i (fb / 4096)).toNat, fb % 4096) ≠ (blk0, o0) := by
        intro fb ha hb hc
        have hfb_ne : fb ≠ (off + (iCur : Int)).toNat := by
          push_cast at ha
          omega
        by_cases hq : fb / 4096 = (off + (iCur : Int)).toNat / 4096
        · have ho : fb % 4096 ≠ o0 := by
            rw [ho0]
            omega
          exact ho (congrArg Prod.snd hc)
        · have hkfb : fb / 4096 < bytes_to_blocks (s.inodes i).size := hdivlt fb hb
          have hdist := hnd _ _ hkfb hk0 hq
          have hBfb := hmapB _ hkfb
          have := congrArg Prod.fst hc
          simp only at this
          rw [hblk0] at this
          omega
      refine ⟨i1, i2, i3, fun k => (i4 k).trans (hsvB k), ?_, ?_⟩
      · intro blk o hout
        have h5 := i5 blk o (fun fb ha hb => by
          rw [hsvB (fb / 4096)]
          exact hout fb (by push_cast at ha ⊢; omega) hb)
        rw [h5, hsB, setByte_blocks]
        have hx := hout (off + (iCur : Int)).toNat (by omega) (by omega)
        rw [if_neg (by
          rintro ⟨ha, hb⟩
          exact hx (by rw [ha, hb]))]
      · intro j hj1 hj2 hj3
        by_cases hj : j = iCur
        · subst hj
          show s'.blocks (slotVal s' i ((off + (j : Int)).toNat / 4096)).toNat
              ((off + (j : Int)).toNat % 4096) = b j % 256
          rw [(i4 _).trans (hsvB _)]
          have h5 := i5 blk0 o0 (fun fb ha hb => by
            rw [hsvB (fb / 4096)]
            exact hloc_ne fb ha hb)
          rw [show (slotVal s i ((off + (j : Int)).toNat / 4096)).toNat = blk0 from rfl]
          rw [show (off + (j : Int)).toNat % 4096 = o0 from rfl]
          rw [h5, hsB, setByte_blocks]
          rw [if_pos ⟨rfl, rfl⟩]
        · have hj' : iCur + 1 ≤ j := by omega
          exact i6 j hj' (by omega) hj3

/-- After a full run of the byte loop over `[off, off + n)` (all below the
size, mapping well formed), reading the same range returns every written
byte. -/
theorem writeRead_roundtrip_core {s : FS} {i : Nat} {b : Nat → Nat}
    {off n : Int} {s1 : FS}
    (hoff : 0 ≤ off) (hn : 0 < n)
    (hinv : GrowInv s i (bytes_to_blocks (s.inodes i).size))
    (hsz : off + n ≤ (s.inodes i).size)
    (hrun : writeLoop s i b off 0 n.toNat = some (s1, n)) :
    inode_read s1 (some i) off n
      = some (n, (List.range n.toNat).map (fun j : Nat => b j % 256)) := by
  obtain ⟨hvi, hdl, hmap, hclean, hindp, hc12, hnd, hndi, hr0, hr1, hr2, hr3,
    hr4, hfit⟩ := hinv
  have hval : inode_valid s (some i) = true := inode_valid_of_validIdx hvi
  have hcap : bytes_to_blocks (s.inodes i).size ≤ 1036 := by omega
  obtain ⟨c1, c2, c3, c4, c5, c6⟩ := writeLoop_content hoff n.toNat s 0 s1 n hval
    (fun k hk => ⟨(hmap k hk).1, (hmap k hk).2.1⟩) hnd hndi hc12 hcap hrun
  have hval1 : inode_valid s1 (some i) = true := by
    rw [inode_valid_congr_inum (by rw [c1]) c2]
    exact hval
  have hind1 : 12 < bytes_to_blocks ((s1.inodes i).size) →
      (s1.inodes i).indirect ≠ 0 := by
    rw [c1]
    exact hc12
  have hcap1 : bytes_to_blocks ((s1.inodes i).size) ≤ 1036 := by
    rw [c1]
    exact hcap
  have hsz1 : off + n ≤ (s1.inodes i).size := by
    rw [c1]
    exact hsz
  rw [inode_read_eq hval1 hoff (le_of_lt hn) hind1 hcap1 hsz1]
  refine congrArg some (congrArg (Prod.mk n) ?_)
  apply List.map_congr_left
  intro j hj
  have hjn : j < n.toNat := List.mem_range.mp hj
  exact c6 j (Nat.zero_le j) (by omega) (by omega)

/-- Inversion of a fully successful `inode_write`: the write went through
some post-grow state `sg` whose mapping still satisfies the grow invariant
at its own block count, whose size covers the request, and which differs
from `s` only at inode `i` and at blocks that were free in `s` (beyond the
contents of `i`'s own blocks). -/
theorem inode_write_inversion {s : FS} {i : Nat} {b : Nat → Nat}
    {off n : Int} {s1 : FS}
    (hoff : 0 ≤ off) (hn : 0 < n)
    (hinv : GrowInv s i (bytes_to_blocks (s.inodes i).size))
    (hrun : inode_write s (some i) b off n = some (s1, n)) :
    ∃ sg, writeLoop sg i b off 0 n.toNat = some (s1, n) ∧
      GrowInv sg i (bytes_to_blocks ((sg.inodes i).size)) ∧
      off + n ≤ (sg.inodes i).size ∧
      sg.ibm = s.ibm ∧
      (∀ j, j ≠ i → sg.inodes j = s.inodes j) ∧
      (∀ bb, s.bbm bb = true →
        ((sg.inodes i).indirect = 0 ∨ bb ≠ (sg.inodes i).indirect.toNat) →
        sg.blocks bb = s.blocks bb) ∧
      (∀ k, k < bytes_to_blocks ((sg.inodes i).size) →
        (k < bytes_to_blocks (s.inodes i).size ∧ slotVal sg i k = slotVal s i k) ∨
        s.bbm (slotVal sg i k).toNat = false) ∧
      ((sg.inodes i).indirect ≠ 0 →
        (sg.inodes i).indirect = (s.inodes i).indirect ∨
        s.bbm (sg.inodes i).indirect.toNat = false) := by
  have hval : inode_valid s (some i) = true := inode_valid_of_validIdx hinv.1
  simp only [inode_write] at hrun
  rw [if_neg (by push_neg; exact ⟨hval, hoff, by omega⟩)] at hrun
  by_cases hR : off + n < (s.inodes i).size
  · have hg : grow_inode s (some i) (off + n) = some (s, -1) := by
      unfold grow_inode
      rw [if_pos (Or.inr hR)]
    rw [hg] at hrun
    have hrun2 : writeLoop s i b off 0 n.toNat = some (s1, n) := hrun
    exact ⟨s, hrun2, hinv, by omega, rfl, fun _ _ => rfl, fun _ _ _ => rfl,
      fun k hk => Or.inl ⟨hk, rfl⟩, fun _ => Or.inl rfl⟩
  · push_neg at hR
    obtain ⟨s2, m, ok, hm1, hm2, hinv2, hdelta, hok, hfail, heq⟩ :=
      grow_inode_spec hval hR hinv
    obtain ⟨d1, d2, d3, d4, d5, d6, d7, d8, d9, d10, d11, d12, d13, d14, d15,
      d16⟩ := hdelta
    set V : Int := if ok then off + n else 4096 * (m : Int) with hV
    have hg : grow_inode s (some i) (off + n) = some (setSize s2 i V, if ok then 0 else -1) := by
      rw [heq]
      cases ok
      · simp [hV]
      · simp [hV]
    rw [hg] at hrun
    have hrun2 : writeLoop (setSize s2 i V) i b off 0 n.toNat = some (s1, n) := hrun
    have hrecV : (setSize s2 i V).inodes i = { s2.inodes i with size := V } :=
      upd_self s2.inodes i _
    have hsizeV : ((setSize s2 i V).inodes i).size = V := by rw [hrecV]
    have hVn : off + n ≤ V := by
      rcases writeLoop_le n.toNat (setSize s2 i V) 0 s1 n hrun2 with h | h
      · exfalso; push_cast at h; omega
      · rw [hsizeV] at h; omega
    have hbtbV : bytes_to_blocks V = m := by
      cases ok with
      | true =>
        have hmN := hok rfl
        have hVe : V = off + n := by rw [hV]; simp
        rw [hVe]
        omega
      | false =>
        have hVe : V = 4096 * (m : Int) := by rw [hV]; simp
        rw [hVe]
        have := bytes_to_blocks_mul m
        rw [show ((4096 * m : Nat) : Int) = 4096 * (m : Int) by push_cast; ring] at this
        exact this
    have hsv : ∀ k, slotVal (setSize s2 i V) i k = slotVal s2 i k := fun k =>
      slotVal_congr_fields k (by rw [hrecV]) (by rw [hrecV]) (fun _ => rfl)
    have hindV : ((setSize s2 i V).inodes i).indirect = (s2.inodes i).indirect := by
      rw [hrecV]
    refine ⟨setSize s2 i V, hrun2, ?_, by rw [hsizeV]; exact hVn, ?_, ?_, ?_, ?_, ?_⟩
    · rw [hsizeV, hbtbV]
      exact growInv_setSize V hinv2
    · exact d2
    · intro j hj
      show upd s2.inodes i _ j = s.inodes j
      rw [upd_ne _ _ hj]
      exact d1 j hj
    · intro bb hbb hcond
      rw [hindV] at hcond
      exact d15 bb hbb hcond
    · intro k hk
      rw [hsizeV, hbtbV] at hk
      by_cases hkc : k < bytes_to_blocks (s.inodes i).size
      · exact Or.inl ⟨hkc, by rw [hsv k]; exact d8 k hkc⟩
      · right
        rw [hsv k]
        exact d9 k (by omega) hk
    · intro hne
      rw [hindV] at hne ⊢
      by_cases h0 : (s.inodes i).indirect = 0
      · exact Or.inr (d12 h0 hne)
      · exact Or.inl (d10 h0)

/-- Inversion of a successful `inode_get_byte_loc`: the inode was valid,
the byte below the size, and the location is the mapped block and offset. -/
theorem inode_get_byte_loc_inv {s : FS} {j : Nat} {fb : Int} {p : Nat × Nat}
    (h : inode_get_byte_loc s (some j) fb = some p) :
    inode_valid s (some j) = true ∧ 0 ≤ fb ∧ fb < (s.inodes j).size ∧
    p = ((slotVal s j (fb.toNat / 4096)).toNat, fb.toNat % 4096) := by
  simp only [inode_get_byte_loc] at h
  by_cases hc : ¬(inode_valid s (some j) = true) ∨ fb < 0 ∨ (s.inodes j).size ≤ fb
  · rw [if_pos hc] at h
    simp at h
  · rw [if_neg hc] at h
    push_neg at hc
    obtain ⟨hv, h0, h1⟩ := hc
    refine ⟨hv, h0, h1, ?_⟩
    cases hg : inode_get_bnum s (some j) ((fb.toNat / 4096 : Nat) : Int) with
    | none =>
      rw [hg] at h
      simp at h
    | some slot =>
      rw [hg] at h
      have hlt : fb.toNat / 4096 < 1036 := by
        by_contra hcc
        rw [inode_get_bnum, if_pos (Or.inr (Or.inr (by push_cast; omega)))] at hg
        exact Option.noConfusion hg
      have hsl : slotAt s j (fb.toNat / 4096) = some slot := by
        rw [← inode_get_bnum_eq_slotAt hv hlt]
        exact hg
      have hsr : slotRead s slot = slotVal s j (fb.toNat / 4096) := by
        simp [slotVal, hsl]
      have h2 : some ((slotRead s slot).toNat, fb.toNat % 4096) = some p := h
      rw [hsr] at h2
      exact (Option.some.inj h2).symm

/-- `inode_get_bnum` only reads the inode record and the inode bitmap. -/
theorem inode_get_bnum_congr {s s1 : FS} {j : Nat}
    (hrec : s1.inodes j = s.inodes j) (hibm : s1.ibm = s.ibm) (x : Int) :
    inode_get_bnum s1 (some j) x = inode_get_bnum s (some j) x := by
  have hvc : inode_valid s1 (some j) = inode_valid s (some j) :=
    inode_valid_congr hrec (fun b2 => congrFun hibm b2)
  simp only [inode_get_bnum, hvc, hrec]

/-- `inode_get_byte_loc` only reads the inode record, the inode bitmap and
the indirect block's contents. -/
theorem inode_get_byte_loc_congr {s s1 : FS} {j : Nat}
    (hrec : s1.inodes j = s.inodes j)
    (hibm : s1.ibm = s.ibm)
    (hindrow : (s.inodes j).indirect ≠ 0 →
      s1.blocks (s.inodes j).indirect.toNat = s.blocks (s.inodes j).indirect.toNat)
    (fb : Int) :
    inode_get_byte_loc s1 (some j) fb = inode_get_byte_loc s (some j) fb := by
  have hvc : inode_valid s1 (some j) = inode_valid s (some j) :=
    inode_valid_congr hrec (fun b2 => congrFun hibm b2)
  by_cases hc : ¬(inode_valid s (some j) = true) ∨ fb < 0 ∨ (s.inodes j).size ≤ fb
  · simp only [inode_get_byte_loc]
    rw [if_pos (by rw [hvc, hrec]; exact hc), if_pos hc]
  · push_neg at hc
    obtain ⟨hv, h0, h1⟩ := hc
    simp only [inode_get_byte_loc]
    rw [if_neg (by push_neg; exact ⟨by rw [hvc]; exact hv, h0, by rw [hrec]; exact h1⟩),
      if_neg (by push_neg; exact ⟨hv, h0, h1⟩)]
    rw [inode_get_bnum_congr hrec hibm]
    cases hg : inode_get_bnum s (some j) ((fb.toNat / 4096 : Nat) : Int) with
    | none => rfl
    | some slot =>
      have hlt : fb.toNat / 4096 < 1036 := by
        by_contra hcc
        rw [inode_get_bnum, if_pos (Or.inr (Or.inr (by push_cast; omega)))] at hg
        exact Option.noConfusion hg
      have hsl : slotAt s j (fb.toNat / 4096) = some slot := by
        rw [← inode_get_bnum_eq_slotAt hv hlt]
        exact hg
      rcases slotAt_cases hsl with ⟨h12, rfl⟩ | ⟨h12, hine, rfl⟩
      · show some (((s1.inodes j).direct.getD _ 0).toNat, _)
            = some (((s.inodes j).direct.getD _ 0).toNat, _)
        rw [hrec]
      · show some ((sdec (le32get (s1.blocks (s.inodes j).indirect.toNat) _)).toNat, _)
            = some ((sdec (le32get (s.blocks (s.inodes j).indirect.toNat) _)).toNat, _)
        rw [hindrow hine]

/-- `inode_get_byte` additionally reads only the file's own data blocks. -/
theorem inode_get_byte_congr {s s1 : FS} {j : Nat}
    (hrec : s1.inodes j = s.inodes j)
    (hibm : s1.ibm = s.ibm)
    (hindrow : (s.inodes j).indirect ≠ 0 →
      s1.blocks (s.inodes j).indirect.toNat = s.blocks (s.inodes j).indirect.toNat)
    (hdata : ∀ k, k < bytes_to_blocks (s.inodes j).size →
      s1.blocks (slotVal s j k).toNat = s.blocks (slotVal s j k).toNat)
    (fb : Int) :
    inode_get_byte s1 (some j) fb = inode_get_byte s (some j) fb := by
  unfold inode_get_byte
  rw [inode_get_byte_loc_congr hrec hibm hindrow fb]
  cases hloc : inode_get_byte_loc s (some j) fb with
  | none => rfl
  | some p =>
    obtain ⟨hv, h0, h1, rfl⟩ := inode_get_byte_loc_inv hloc
    have hk : fb.toNat / 4096 < bytes_to_blocks (s.inodes j).size := by
      have hsz2 : (s.inodes j).size = ((s.inodes j).size.toNat : Int) :=
        (Int.toNat_of_nonneg (by omega)).symm
      rw [hsz2, lt_bytes_to_blocks]
      omega
    show some (s1.blocks _ _) = some (s.blocks _ _)
    rw [hdata _ hk]

/-- `inode_read` only reads the inode record, the inode bitmap, the
indirect block and the file's data blocks. -/
theorem inode_read_congr {s s1 : FS} {j : Nat}
    (hrec : s1.inodes j = s.inodes j)
    (hibm : s1.ibm = s.ibm)
    (hindrow : (s.inodes j).indirect ≠ 0 →
      s1.blocks (s.inodes j).indirect.toNat = s.blocks (s.inodes j).indirect.toNat)
    (hdata : ∀ k, k < bytes_to_blocks (s.inodes j).size →
      s1.blocks (slotVal s j k).toNat = s.blocks (slotVal s j k).toNat) :
    ∀ off n, inode_read s1 (some j) off n = inode_read s (some j) off n := by
  have hvc : inode_valid s1 (some j) = inode_valid s (some j) :=
    inode_valid_congr hrec (fun b2 => congrFun hibm b2)
  have hrl : ∀ fuel off iCur, readLoop s1 j off iCur fuel = readLoop s j off iCur fuel := by
    intro fuel
    induction fuel with
    | zero => intro off iCur; rfl
    | succ n ih =>
      intro off iCur
      simp only [readLoop, hrec]
      by_cases hsz : (s.inodes j).size ≤ off + iCur
      · rw [if_pos hsz, if_pos hsz]
      · rw [if_neg hsz, if_neg hsz,
          inode_get_byte_congr hrec hibm hindrow hdata (off + iCur)]
        cases inode_get_byte s (some j) (off + (iCur : Int)) with
        | none => rfl
        | some v => rw [ih off (iCur + 1)]
  intro off n
  simp only [inode_read, hvc]
  by_cases hc : ¬(inode_valid s (some j) = true) ∨ off < 0 ∨ n < 0
  · rw [if_pos hc, if_pos hc]
  · rw [if_neg hc, if_neg hc, hrl n.toNat off 0]

/-- `dirent_read` congruence, inherited from `inode_read`. -/
theorem dirent_read_congr {s s1 : FS} {j : Nat}
    (hread : ∀ off n, inode_read s1 (some j) off n = inode_read s (some j) off n)
    (idx : Nat) :
    dirent_read s1 (some j) idx = dirent_read s (some j) idx := by
  simp only [dirent_read, hread]

/-- `dirent_lookup` congruence: the scan reads only the directory's slots
and its record. -/
theorem dirent_lookup_congr {s s1 : FS} {j : Nat}
    (hrec : s1.inodes j = s.inodes j)
    (hread : ∀ off n, inode_read s1 (some j) off n = inode_read s (some j) off n)
    (name : List Nat) :
    dirent_lookup s1 (some j) name = dirent_lookup s (some j) name := by
  have hsc : slotCount s1 j = slotCount s j := by
    simp only [slotCount, hrec]
  have hll : ∀ fuel ii, lookupLoop s1 (some j) name ii fuel
      = lookupLoop s (some j) name ii fuel := by
    intro fuel
    induction fuel with
    | zero => intro ii; rfl
    | succ n ih =>
      intro ii
      simp only [lookupLoop, dirent_read_congr hread ii]
      cases dirent_read s (some j) ii with
      | none => rfl
      | some od =>
        by_cases hm : strcmpEq name (od.getD zeroDirent).name
        · simp only [hm, if_true]
        · simp only [hm, if_false]
          exact ih (ii + 1)
  simp only [dirent_lookup, hsc, hll]

/-- `directory_lookup` congruence. -/
theorem directory_lookup_congr {s s1 : FS} {j : Nat}
    (hrec : s1.inodes j = s.inodes j)
    (hread : ∀ off n, inode_read s1 (some j) off n = inode_read s (some j) off n)
    (name : List Nat) :
    directory_lookup s1 (some j) name = directory_lookup s (some j) name := by
  simp only [directory_lookup, dirent_lookup_congr hrec hread name]
  cases dirent_lookup s (some j) name with
  | none => rfl
  | some oi =>
    cases oi with
    | none => rfl
    | some idx =>
      have h := dirent_read_congr hread idx
      simp only [h]

/-- `resolveLoop` congruence: two states agreeing on every directory the
walk visits resolve alike. -/
theorem resolveLoop_congr {s s1 : FS} {i : Nat}
    (hlk : ∀ j, j ≠ i → ∀ c, directory_lookup s1 (some j) c
      = directory_lookup s (some j) c) :
    ∀ comps di, i ∉ resolveVisits s di comps →
      resolveLoop s1 di comps = resolveLoop s di comps := by
  intro comps
  induction comps with
  | nil => intro di _; cases di <;> rfl
  | cons c rest ih =>
    intro di hnv
    cases di with
    | none => rfl
    | some d =>
      have hd : d ≠ i := by
        intro h
        subst h
        exact hnv (by simp [resolveVisits])
      simp only [resolveLoop, hlk d hd c]
      cases hl : directory_lookup s (some d) c with
      | none => rfl
      | some inum =>
        show (if inum = -1 then some none else resolveLoop s1 (get_inode inum) rest)
            = (if inum = -1 then some none else resolveLoop s (get_inode inum) rest)
        by_cases h1 : inum = -1
        · rw [if_pos h1, if_pos h1]
        · rw [if_neg h1, if_neg h1]
          apply ih
          intro hmem
          apply hnv
          simp only [resolveVisits, hl]
          rw [if_neg h1]
          exact List.mem_cons_of_mem d hmem

/-- `path_get_inode` congruence under the same agreement. -/
theorem path_get_inode_congr {s s1 : FS} {i : Nat} {p : List Nat}
    (hlk : ∀ j, j ≠ i → ∀ c, directory_lookup s1 (some j) c
      = directory_lookup s (some j) c)
    (hnv : i ∉ resolveVisits s (get_inode 1) (slist_explode (p.drop 1) 47)) :
    path_get_inode s1 p = path_get_inode s p := by
  simp only [path_get_inode]
  by_cases hp : p = [47]
  · rw [if_pos hp, if_pos hp]
  · rw [if_neg hp, if_neg hp]
    exact resolveLoop_congr hlk _ _ hnv

/-- C9: if a write of `n` bytes at `off` through path `p` (resolving to
inode `i`, with a well-formed mapping, `p`'s resolution not passing through
`i`, and every other inode's blocks marked and disjoint from `i`'s) returns
exactly `n`, then an immediately following read of the same range through
the same path returns `n` and yields the written bytes (as C `char`s:
reduced mod 256). -/
theorem c9_write_read_roundtrip
    {s : FS} {p : List Nat} {i : Nat} {b : Nat → Nat} {off n : Int} {s1 : FS}
    (hoff : 0 ≤ off) (hn : 0 < n)
    (hres : path_get_inode s p = some (some i))
    (hinv : GrowInv s i (bytes_to_blocks (s.inodes i).size))
    (hnv : i ∉ resolveVisits s (get_inode 1) (slist_explode (p.drop 1) 47))
    (hdisj : ∀ j, j ≠ i → ∀ k, k < bytes_to_blocks (s.inodes j).size →
      s.bbm (slotVal s j k).toNat = true ∧
      (∀ k2, k2 < bytes_to_blocks (s.inodes i).size →
        (slotVal s j k).toNat ≠ (slotVal s i k2).toNat) ∧
      ((s.inodes i).indirect ≠ 0 →
        (slotVal s j k).toNat ≠ (s.inodes i).indirect.toNat))
    (hdisjind : ∀ j, j ≠ i → (s.inodes j).indirect ≠ 0 →
      s.bbm (s.inodes j).indirect.toNat = true ∧
      (∀ k2, k2 < bytes_to_blocks (s.inodes i).size →
        (s.inodes j).indirect.toNat ≠ (slotVal s i k2).toNat) ∧
      ((s.inodes i).indirect ≠ 0 →
        (s.inodes j).indirect.toNat ≠ (s.inodes i).indirect.toNat))
    (hw : storage_write s p b n off = some (s1, n)) :
    storage_read s1 p n off
      = some (n, (List.range n.toNat).map (fun j : Nat => b j % 256)) := by
  simp only [storage_write] at hw
  rw [hres] at hw
  have hw2 : inode_write s (some i) b off n = some (s1, n) := hw
  obtain ⟨sg, hrunW, hinvg, hszg, gibm, ginodes, gblocks, gslots, gind⟩ :=
    inode_write_inversion hoff hn hinv hw2
  have hread_i : inode_read s1 (some i) off n
      = some (n, (List.range n.toNat).map (fun j : Nat => b j % 256)) :=
    writeRead_roundtrip_core hoff hn hinvg hszg hrunW
  obtain ⟨gval, gdl, gmap, gclean, gindp, gc12, gnd, gndi, gr0, gr1, gr2, gr3,
    gr4, gfit⟩ := hinvg
  obtain ⟨w1, w2, w3, w4, w5, w6⟩ := writeLoop_content hoff n.toNat sg 0 s1 n
    (inode_valid_of_validIdx gval)
    (fun k hk => ⟨(gmap k hk).1, (gmap k hk).2.1⟩) gnd gndi gc12 (by omega) hrunW
  have hszpos : 0 < (sg.inodes i).size := by omega
  have hrow : ∀ bb, s.bbm bb = true →
      (∀ k2, k2 < bytes_to_blocks (s.inodes i).size → bb ≠ (slotVal s i k2).toNat) →
      ((s.inodes i).indirect ≠ 0 → bb ≠ (s.inodes i).indirect.toNat) →
      s1.blocks bb = s.blocks bb := by
    intro bb hmark hk2 hindb
    have hnotdata : ∀ k, k < bytes_to_blocks ((sg.inodes i).size) →
        (slotVal sg i k).toNat ≠ bb := by
      intro k hk
      rcases gslots k hk with ⟨hks, heqv⟩ | hfree
      · rw [heqv]
        exact fun hc => hk2 k hks hc.symm
      · intro hc
        rw [hc, hmark] at hfree
        exact Bool.noConfusion hfree
    have hnotind_g : (sg.inodes i).indirect = 0 ∨ bb ≠ (sg.inodes i).indirect.toNat := by
      by_cases hgz : (sg.inodes i).indirect = 0
      · exact Or.inl hgz
      · right
        rcases gind hgz with heq | hfree
        · rw [heq]
          exact hindb (by rw [← heq]; exact hgz)
        · intro hc
          rw [← hc, hmark] at hfree
          exact Bool.noConfusion hfree
    have hwrow : s1.blocks bb = sg.blocks bb := by
      funext o
      apply w5 bb o
      intro fb hfb1 hfb2 hc
      have hkb : fb / 4096 < bytes_to_blocks ((sg.inodes i).size) := by
        have hsz2 : (sg.inodes i).size = ((sg.inodes i).size.toNat : Int) :=
          (Int.toNat_of_nonneg (by omega)).symm
        rw [hsz2, lt_bytes_to_blocks]
        omega
      exact hnotdata _ hkb (congrArg Prod.fst hc)
    rw [hwrow]
    exact gblocks bb hmark hnotind_g
  have hlk : ∀ j, j ≠ i → ∀ c, directory_lookup s1 (some j) c
      = directory_lookup s (some j) c := by
    intro j hj c
    have hrecj : s1.inodes j = s.inodes j := by
      rw [w1]
      exact ginodes j hj
    have hibm1 : s1.ibm = s.ibm := w2.trans gibm
    have hreadj : ∀ off' n', inode_read s1 (some j) off' n'
        = inode_read s (some j) off' n' := by
      apply inode_read_congr hrecj hibm1
      · intro hne
        obtain ⟨hm, hb2, hb3⟩ := hdisjind j hj hne
        exact hrow _ hm hb2 hb3
      · intro k hk
        obtain ⟨hm, hb2, hb3⟩ := hdisj j hj k hk
        exact hrow _ hm hb2 hb3
    exact directory_lookup_congr hrecj hreadj c
  have hres1 : path_get_inode s1 p = some (some i) := by
    rw [path_get_inode_congr hlk hnv]
    exact hres
  simp only [storage_read]
  rw [hres1]
  exact hread_i

/-- The loop invariant of `grow_inode` holds for the clean regular file of
`c9state` at block count 0. -/
theorem growInv_c9state : GrowInv c9state 2 0 := by
  refine ⟨⟨by decide, by decide, by decide, by decide⟩, by decide,
    fun k hk => absurd hk (Nat.not_lt_zero k), ?_, ?_,
    fun h => absurd h (by omega),
    fun k k2 hk _ _ => absurd hk (Nat.not_lt_zero k),
    fun k hk => absurd hk (Nat.not_lt_zero k),
    by decide, by decide, by decide, by decide, by decide, ?_⟩
  · intro k _ hk2
    have h : (c9state.inodes 2).direct = List.replicate 12 0 := rfl
    rw [h]
    interval_cases k <;> rfl
  · intro h
    exact absurd rfl h
  · have h : freeBlockCount c9state = 250 := by decide
    omega

/-- Witness for C9: on `c9state`, writing one byte `65` to `/a` at offset 0
returns 1, and the immediate read-back returns 1 and the byte `65`. -/
theorem c9_write_read_roundtrip_witness :
    path_get_inode c9state [47, 97] = some (some 2) ∧
    storage_write c9state [47, 97] (fun _ => 65) 1 0 = some (c9post, 1) ∧
    storage_read c9post [47, 97] 1 0
      = some (1, (List.range (1 : Int).toNat).map
          (fun j : Nat => (fun _ : Nat => 65) j % 256)) := by
  have hdisj : ∀ j, j ≠ 2 → ∀ k, k < bytes_to_blocks ((c9state.inodes j).size) →
      c9state.bbm (slotVal c9state j k).toNat = true ∧
      (∀ k2, k2 < bytes_to_blocks ((c9state.inodes 2).size) →
        (slotVal c9state j k).toNat ≠ (slotVal c9state 2 k2).toNat) ∧
      ((c9state.inodes 2).indirect ≠ 0 →
        (slotVal c9state j k).toNat ≠ (c9state.inodes 2).indirect.toNat) := by
    intro j hj k hk
    by_cases h1 : j = 1
    · subst h1
      have hbt : bytes_to_blocks ((c9state.inodes 1).size) = 1 := by decide
      rw [hbt] at hk
      interval_cases k
      refine ⟨by decide, ?_, ?_⟩
      · intro k2 hk2
        have h2 : bytes_to_blocks ((c9state.inodes 2).size) = 0 := by decide
        rw [h2] at hk2
        omega
      · intro hne
        exact absurd (by decide : (c9state.inodes 2).indirect = 0) hne
    · exfalso
      have hz : (c9state.inodes j).size = 0 := by
        simp only [c9state]
        rw [if_neg h1, if_neg hj]
      rw [hz] at hk
      have h0 : bytes_to_blocks (0 : Int) = 0 := by decide
      omega
  have hdisjind : ∀ j, j ≠ 2 → (c9state.inodes j).indirect ≠ 0 →
      c9state.bbm (c9state.inodes j).indirect.toNat = true ∧
      (∀ k2, k2 < bytes_to_blocks ((c9state.inodes 2).size) →
        (c9state.inodes j).indirect.toNat ≠ (slotVal c9state 2 k2).toNat) ∧
      ((c9state.inodes 2).indirect ≠ 0 →
        (c9state.inodes j).indirect.toNat ≠ (c9state.inodes 2).indirect.toNat) := by
    intro j hj hne
    exfalso
    apply hne
    by_cases h1 : j = 1
    · subst h1
      decide
    · simp only [c9state]
      rw [if_neg h1, if_neg hj]
  have hinv : GrowInv c9state 2 (bytes_to_blocks ((c9state.inodes 2).size)) := by
    have h : bytes_to_blocks ((c9state.inodes 2).size) = 0 := by decide
    rw [h]
    exact growInv_c9state
  have hw : storage_write c9state [47, 97] (fun _ => 65) 1 0 = some (c9post, 1) := rfl
  refine ⟨by decide, hw, ?_⟩
  exact c9_write_read_roundtrip (by decide) (by decide) (by decide) hinv
    (by decide) hdisj hdisjind hw

end SFS
